import Mathlib

/-!
# Verification of the FCP text-based-editing core

A shallow embedding of the timeline segmentation and edit-range resolution
engine (`src/models.py`, `src/timeline.py`) of the FCP text-based editor,
together with proofs and refutations of the specification's claims.

Modelling conventions:
* Python `float` values are modelled as exact rationals (`ℚ`); `round(x, 4)`
  is modelled as exact decimal rounding to 4 places with ties to even
  (`round4`), which is Python's rounding rule on the ideal decimal value.
* Python's `end` attribute is renamed `stop` (`end` is a Lean keyword).
* Fallible code (Python `IndexError` on list indexing) returns `Except`.
* The builder's mutable pointer `det_idx` into the sorted detected-silence
  list is modelled by the remaining suffix `det_sil[det_idx:]` of that list;
  advancing the pointer drops elements from the suffix.
* The Python lists that are built by repeated `append` (and updated at
  position `[-2]`) are modelled as reversed accumulators: `append` is `cons`,
  `segments[-2]` is the second element of the accumulator.
-/

namespace FTE

/-- Source: `models.py`, `TextSegment` — a word (Whisper) or caption phrase
(FCPXML) with source timing.  `stop` is the source's `end` field. -/
structure TextSegment where
  text : String
  start : ℚ
  stop : ℚ
deriving DecidableEq

/-- Source: `models.py`, `Silence` — a gap in speech, with the FULL bounds of
the silent region.  `stop` is the source's `end` field. -/
structure Silence where
  start : ℚ
  stop : ℚ
  is_detected : Bool := true
deriving DecidableEq

/-- Source: `models.py`, `Segment = Union[TextSegment, Silence]`, re-expressed
as a closed sum. -/
inductive Segment where
  | text (t : TextSegment)
  | silence (s : Silence)
deriving DecidableEq

/-- The start time of a segment (either variant). -/
def Segment.start : Segment → ℚ
  | .text t => t.start
  | .silence s => s.start

/-- The end time of a segment (either variant). -/
def Segment.stop : Segment → ℚ
  | .text t => t.stop
  | .silence s => s.stop

/-- Round a rational to an integer, ties to even (Python `round`'s rule on
the ideal decimal value). -/
def roundHalfEven (x : ℚ) : ℤ :=
  let n := ⌊x⌋
  let r := x - n
  if r < 1/2 then n
  else if 1/2 < r then n + 1
  else if n % 2 = 0 then n else n + 1

/-- Python `round(x, 4)` on the ideal decimal value. -/
def round4 (x : ℚ) : ℚ := (roundHalfEven (x * 10000) : ℚ) / 10000

/-- Source: `models.py`, `TextSegment.duration`. -/
def TextSegment.duration (t : TextSegment) : ℚ := t.stop - t.start

/-- Source: `models.py`, `Silence.duration`. -/
def Silence.duration (s : Silence) : ℚ := s.stop - s.start

/-- Source: `models.py`, `Silence.deletable_range` —
the portion of the silence that will actually be removed, or `none` if the
silence is too short to survive the buffer on both sides. -/
def Silence.deletable_range (s : Silence) (buffer : ℚ) : Option (ℚ × ℚ) :=
  let inner_start := s.start + buffer
  let inner_end := s.stop - buffer
  if inner_start + 0.001 < inner_end then some (round4 inner_start, round4 inner_end)
  else none

/-- Source: `models.py`, `SilenceSettings` (fields only; the `__post_init__`
clamp is in `mkSilenceSettings`, the model of dataclass construction). -/
structure SilenceSettings where
  threshold_db : ℚ
  min_duration : ℚ
  buffer : ℚ
deriving DecidableEq

/-- Source: `models.py`, `SilenceSettings.__init__` followed by
`__post_init__`, which sets `buffer = max(0.001, round(buffer, 4))`. -/
def mkSilenceSettings (threshold_db min_duration buffer : ℚ) : SilenceSettings :=
  { threshold_db := threshold_db
    min_duration := min_duration
    buffer := max 0.001 (round4 buffer) }

/-- Python runtime errors that the embedded code can raise. -/
inductive PyErr where
  | indexError
deriving DecidableEq

/-- Source: `timeline.py`, `WORD_GAP_COLLAPSE_S = 0.010`. -/
def WORD_GAP_COLLAPSE_S : ℚ := 0.010

/-- Source: `timeline.py` line 57 — `sorted(text_segments, key=lambda w: w.start)`
(a stable sort, modelled by insertion sort, which is stable). -/
def sortByStart (l : List TextSegment) : List TextSegment :=
  List.insertionSort (fun a b : TextSegment => a.start ≤ b.start) l

/-- Source: `timeline.py` line 61 — `sorted(detected_silences, key=lambda s: s.start)`. -/
def sortSilences (l : List Silence) : List Silence :=
  List.insertionSort (fun a b : Silence => a.start ≤ b.start) l

/-- Source: `timeline.py` lines 70-76 — the `for s in det_sil[det_idx:]` scan
inside `is_detected`: break once `s.start > gap_end`, return `True` on the
first overlap of at least 1 ms.  Does not move the pointer. -/
def scanDet : List Silence → ℚ → ℚ → Bool
  | [], _, _ => false
  | s :: rest, gs, ge =>
    if ge < s.start then false
    else if (0.001 : ℚ) ≤ min s.stop ge - max s.start gs then true
    else scanDet rest gs ge

/-- Source: `timeline.py` lines 64-76 — the closure `is_detected(gap_start,
gap_end)`: first the `while` loop advances `det_idx` past silences that end
before the gap (modelled: drop them from the suffix), then the scan runs from
the new pointer.  Returns the result together with the new suffix
`det_sil[det_idx:]`. -/
def isDetectedFrom : List Silence → ℚ → ℚ → Bool × List Silence
  | [], _, _ => (false, [])
  | s :: rest, gs, ge =>
    if s.stop < gs then isDetectedFrom rest gs ge
    else (scanDet (s :: rest) gs ge, s :: rest)

/-- The naive classification: scan every detected interval for the gap and
test for an overlap of at least 1 ms.  (The specification's reference point
for the pointer-optimised check.) -/
def naiveDetected (dets : List Silence) (gs ge : ℚ) : Bool :=
  dets.any fun s => decide ((0.001 : ℚ) ≤ min s.stop ge - max s.start gs)

/-- The builder's gap classification-and-emission, abstracted over the gap
sequence: for each gap `(gs, ge)` in order, run the stateful pointer check
and emit `Silence(gs, ge, detected)` with the gap's full bounds
(source: `timeline.py` lines 83, 99-101, 121). -/
def classifySilences (detSuf : List Silence) : List (ℚ × ℚ) → List Silence
  | [] => []
  | (gs, ge) :: gaps =>
    let r := isDetectedFrom detSuf gs ge
    Silence.mk gs ge r.1 :: classifySilences r.2 gaps

/-- Source: `timeline.py` lines 88-113 — the main loop of `build_timeline`
over `enumerate(words)`.  `revSegs` is the `segments` list reversed (append
is cons; `segments[-2]` is the second element); `detSuf` is the remaining
suffix `det_sil[det_idx:]`.  A gap longer than `WORD_GAP_COLLAPSE_S` emits a
classified `Silence`; a micro-gap (`0 < gap_dur ≤ 0.010`) runs the
`segments[-2]` replacement, which raises `IndexError` when `segments` has
fewer than two elements, replaces `segments[-2]` when it is a `TextSegment`
(note: the source comment says "the word we just appended" but `segments[-2]`
is the element *before* it), and does nothing when it is a `Silence`. -/
def wordsLoop (revSegs : List Segment) (detSuf : List Silence) :
    List TextSegment → Except PyErr (List Segment × List Silence)
  | [] => .ok (revSegs, detSuf)
  | [w] => .ok (Segment.text w :: revSegs, detSuf)
  | w :: next :: rest =>
    let revSegs1 := Segment.text w :: revSegs
    let gap_start := round4 w.stop
    let gap_end := round4 next.start
    let gap_dur := gap_end - gap_start
    if WORD_GAP_COLLAPSE_S < gap_dur then
      let r := isDetectedFrom detSuf gap_start gap_end
      wordsLoop (Segment.silence ⟨gap_start, gap_end, r.1⟩ :: revSegs1) r.2 (next :: rest)
    else if 0 < gap_dur then
      match revSegs1 with
      | s1 :: s2 :: tail =>
        match s2 with
        | .text t =>
          wordsLoop (s1 :: Segment.text ⟨t.text, t.start, round4 next.start⟩ :: tail)
            detSuf (next :: rest)
        | .silence _ => wordsLoop revSegs1 detSuf (next :: rest)
      | _ => .error .indexError
    else wordsLoop revSegs1 detSuf (next :: rest)

/-- Source: `timeline.py`, `build_timeline` — empty input is wrapped as one
undetected silence; otherwise: optional leading silence (classified, then the
pointer is reset, line 85), the main loop, and an optional trailing silence
classified with the pointer left by the main loop.  The `settings` argument
is accepted but never used, exactly as in the source. -/
def build_timeline (text_segments : List TextSegment) (detected_silences : List Silence)
    (video_duration : ℚ) (_settings : SilenceSettings) : Except PyErr (List Segment) :=
  match sortByStart text_segments with
  | [] => .ok [Segment.silence ⟨0, round4 video_duration, false⟩]
  | w0 :: wrest =>
    let det_sil := sortSilences detected_silences
    let lead : List Segment :=
      if WORD_GAP_COLLAPSE_S < w0.start then
        [Segment.silence ⟨0, round4 w0.start, (isDetectedFrom det_sil 0 (round4 w0.start)).1⟩]
      else []
    match wordsLoop lead det_sil (w0 :: wrest) with
    | .error e => .error e
    | .ok (revSegs, detSuf) =>
      let last_word_end := round4 ((w0 :: wrest).getLastD w0).stop
      if WORD_GAP_COLLAPSE_S < video_duration - last_word_end then
        .ok (Segment.silence ⟨last_word_end, round4 video_duration,
              (isDetectedFrom detSuf last_word_end (round4 video_duration)).1⟩
              :: revSegs).reverse
      else .ok revSegs.reverse

/-- Source: `timeline.py` lines 147-157 — build the list of intervals to
delete, scanning the (sorted) deleted indices in order: a deleted `Silence`
contributes its `deletable_range` if present, a deleted `TextSegment` its
full `(start, end)`.  A bad index raises `IndexError`. -/
def collectDeleted (segments : List Segment) (buffer : ℚ) :
    List ℕ → Except PyErr (List (ℚ × ℚ))
  | [] => .ok []
  | idx :: rest =>
    match segments.get? idx with
    | none => .error .indexError
    | some seg =>
      match collectDeleted segments buffer rest with
      | .error e => .error e
      | .ok tail =>
        match seg with
        | .silence s =>
          match s.deletable_range buffer with
          | some r => .ok (r :: tail)
          | none => .ok tail
        | .text t => .ok ((t.start, t.stop) :: tail)

/-- Source: `timeline.py` lines 163-169 — sort-and-merge of the delete
intervals, with the merged list kept reversed (the source appends to and
updates the last element of `merged_del`; here that element is the head). -/
def mergeRev : List (ℚ × ℚ) → List (ℚ × ℚ) → List (ℚ × ℚ)
  | acc, [] => acc
  | [], iv :: rest => mergeRev [iv] rest
  | (ms, me) :: accTail, (s, e) :: rest =>
    if s ≤ me then mergeRev ((ms, max me e) :: accTail) rest
    else mergeRev ((s, e) :: (ms, me) :: accTail) rest

/-- Source: `timeline.py` lines 172-180 — the complement scan: walk the
merged delete intervals left to right with a cursor, emitting the keep range
before each interval only when it is longer than the 1 ms tolerance.
Returns the emitted ranges and the final cursor. -/
def complementLoop (cursor : ℚ) : List (ℚ × ℚ) → List (ℚ × ℚ) × ℚ
  | [] => ([], cursor)
  | (ds, de) :: rest =>
    let ds4 := round4 ds
    let de4 := round4 de
    let r := complementLoop de4 rest
    if cursor + 0.001 < ds4 then ((cursor, ds4) :: r.1, r.2) else r

/-- Source: `timeline.py` line 163 — `deleted_intervals.sort(key=lambda x: x[0])`
(stable, modelled by insertion sort). -/
def sortPairs (l : List (ℚ × ℚ)) : List (ℚ × ℚ) :=
  List.insertionSort (fun p q : ℚ × ℚ => p.1 ≤ q.1) l

/-- Source: `timeline.py`, `get_keep_ranges` — compute the `(start, end)`
ranges to keep.  The Python argument `deleted_indices` is a `set`; it is
modelled as a `Finset ℕ`, and `sorted(deleted_indices)` as its sorted list
of elements. -/
def get_keep_ranges (segments : List Segment) (deleted_indices : Finset ℕ)
    (buffer : ℚ) (total_duration : ℚ) : Except PyErr (List (ℚ × ℚ)) :=
  match collectDeleted segments buffer (deleted_indices.sort (· ≤ ·)) with
  | .error e => .error e
  | .ok deleted_intervals =>
    if deleted_intervals = [] then .ok [(0, total_duration)]
    else
      let merged_del := (mergeRev [] (sortPairs deleted_intervals)).reverse
      let r := complementLoop 0 merged_del
      .ok (r.1 ++ if r.2 < total_duration - 0.001 then [(r.2, round4 total_duration)] else [])

/-- Source: `models.py`, `Project.time_saved` — total seconds cut: sum, over
the project's `deleted` index list, of the deletable-range length of a
deleted `Silence` (when present) or the full duration of a deleted
`TextSegment`.  A bad index raises `IndexError`. -/
def time_saved (segments : List Segment) (buffer : ℚ) : List ℕ → Except PyErr ℚ
  | [] => .ok 0
  | idx :: rest =>
    match segments.get? idx with
    | none => .error .indexError
    | some seg =>
      match time_saved segments buffer rest with
      | .error e => .error e
      | .ok total =>
        match seg with
        | .silence s =>
          match s.deletable_range buffer with
          | some r => .ok (total + (r.2 - r.1))
          | none => .ok total
        | .text t => .ok (total + t.duration)

/-- Source: `models.py`, the tagged segment records of the persisted session
file (`Project.to_dict` / the `data["segments"]` entries read by
`Project.load`). -/
inductive SegRec where
  | text (text : String) (start stop : ℚ)
  | silence (start stop : ℚ) (is_detected : Bool)
deriving DecidableEq

/-- The parsed JSON payload consumed by `Project.load` (`models.py` lines
149-175), after `json.load`: exactly the fields the loader reads. -/
structure SessionData where
  video_path : String
  audio_path : String
  video_duration : ℚ
  video_fps : ℚ
  video_width : ℤ
  video_height : ℤ
  source_fcpxml : Option String
  fcpxml_version : String
  fcpxml_asset_id : String
  fcpxml_format_id : String
  deleted : List ℕ
  settings_threshold_db : ℚ
  settings_min_duration : ℚ
  settings_buffer : ℚ
  segments : List SegRec
deriving DecidableEq

/-- Source: `models.py`, `Project` (the dataclass fields). -/
structure Project where
  video_path : String
  audio_path : String
  segments : List Segment
  deleted : List ℕ
  silence_settings : SilenceSettings
  video_duration : ℚ
  video_fps : ℚ
  video_width : ℤ
  video_height : ℤ
  source_fcpxml : Option String
  fcpxml_version : String
  fcpxml_asset_id : String
  fcpxml_format_id : String
deriving DecidableEq

/-- Source: `models.py` lines 152-159 — rebuild a `Segment` from a tagged
record. -/
def SegRec.toSegment : SegRec → Segment
  | .text t s e => .text ⟨t, s, e⟩
  | .silence s e d => .silence ⟨s, e, d⟩

/-- Source: `models.py`, `Project.load` (lines 147-175) minus the file I/O:
rebuild the segment list, pass `deleted` through as read, and construct
`SilenceSettings` (which clamps the buffer).  The loader performs no
validation of any field. -/
def Project.load (d : SessionData) : Project :=
  { video_path := d.video_path
    audio_path := d.audio_path
    segments := d.segments.map SegRec.toSegment
    deleted := d.deleted
    silence_settings :=
      mkSilenceSettings d.settings_threshold_db d.settings_min_duration d.settings_buffer
    video_duration := d.video_duration
    video_fps := d.video_fps
    video_width := d.video_width
    video_height := d.video_height
    source_fcpxml := d.source_fcpxml
    fcpxml_version := d.fcpxml_version
    fcpxml_asset_id := d.fcpxml_asset_id
    fcpxml_format_id := d.fcpxml_format_id }

/-- The caller-owned state touched (read-only) by the engine's two entry
points: the speech-unit and detected-silence lists consumed by
`build_timeline`, and the segment list and deleted-index set consumed by
`get_keep_ranges`.  Every mutation the source performs (appends to the local
`segments` list, the `segments[-2]` assignment, `det_idx` advances) is
represented explicitly inside `wordsLoop` / `build_timeline`; none of them
targets these caller lists, which is what claim C10 asserts. -/
structure CallerState where
  text_segments : List TextSegment
  detected_silences : List Silence
  segments : List Segment
  deleted_indices : Finset ℕ
deriving DecidableEq

/-- `build_timeline` as a call on the caller's state: the result together
with the caller's lists after the call. -/
def build_timeline_call (st : CallerState) (video_duration : ℚ)
    (settings : SilenceSettings) : Except PyErr (List Segment) × CallerState :=
  (build_timeline st.text_segments st.detected_silences video_duration settings, st)

/-- `get_keep_ranges` as a call on the caller's state: the result together
with the caller's lists after the call. -/
def get_keep_ranges_call (st : CallerState) (buffer total_duration : ℚ) :
    Except PyErr (List (ℚ × ℚ)) × CallerState :=
  (get_keep_ranges st.segments st.deleted_indices buffer total_duration, st)

/-- Total length of a list of ranges. -/
def keepTotal (l : List (ℚ × ℚ)) : ℚ := (l.map fun r => r.2 - r.1).sum

/-- `x` is an exact multiple of `1e-4` (a value already rounded to 4
decimals, which is the builder's output discipline for all times). -/
def Q4 (x : ℚ) : Prop := ∃ n : ℤ, x * 10000 = (n : ℚ)

/-! ## Rounding lemmas -/

theorem abs_roundHalfEven_sub (y : ℚ) : |(roundHalfEven y : ℚ) - y| ≤ 1/2 := by
  have h0 : (0 : ℚ) ≤ y - ⌊y⌋ := by have := Int.floor_le y; linarith
  have h1 : y - ⌊y⌋ < 1 := by have := Int.lt_floor_add_one y; linarith
  simp only [roundHalfEven]
  split_ifs <;> rw [abs_le] <;> constructor <;> push_cast <;> linarith

theorem abs_round4_sub (x : ℚ) : |round4 x - x| ≤ 1/20000 := by
  have h := abs_roundHalfEven_sub (x * 10000)
  rw [abs_le] at h ⊢
  obtain ⟨h1, h2⟩ := h
  constructor <;> simp only [round4] <;> linarith

theorem round4_le (x : ℚ) : round4 x ≤ x + 1/20000 := by
  have := abs_round4_sub x; rw [abs_le] at this; linarith [this.2]

theorem le_round4 (x : ℚ) : x - 1/20000 ≤ round4 x := by
  have := abs_round4_sub x; rw [abs_le] at this; linarith [this.1]

theorem round4_eq_of_q4 {x : ℚ} (h : Q4 x) : round4 x = x := by
  obtain ⟨n, hn⟩ := h
  have hx : x = (n : ℚ) / 10000 := by
    field_simp at hn ⊢; linarith
  simp only [round4, roundHalfEven, hn, Int.floor_intCast, sub_self]
  norm_num [hx]

theorem Q4.add {x y : ℚ} (hx : Q4 x) (hy : Q4 y) : Q4 (x + y) := by
  obtain ⟨n, hn⟩ := hx; obtain ⟨m, hm⟩ := hy
  exact ⟨n + m, by push_cast; linarith⟩

theorem Q4.sub {x y : ℚ} (hx : Q4 x) (hy : Q4 y) : Q4 (x - y) := by
  obtain ⟨n, hn⟩ := hx; obtain ⟨m, hm⟩ := hy
  exact ⟨n - m, by push_cast; linarith⟩

theorem Q4.max {x y : ℚ} (hx : Q4 x) (hy : Q4 y) : Q4 (max x y) := by
  rcases max_choice x y with h | h <;> rw [h] <;> assumption

theorem Q4.min {x y : ℚ} (hx : Q4 x) (hy : Q4 y) : Q4 (min x y) := by
  rcases min_choice x y with h | h <;> rw [h] <;> assumption

theorem Q4.zero : Q4 0 := ⟨0, by norm_num⟩

theorem Q4.round4 (x : ℚ) : Q4 (round4 x) :=
  ⟨roundHalfEven (x * 10000), by simp [FTE.round4]⟩

/-! ## Claim C5 -/

/-- **C5** (confirmed): for every `Silence` with `start < end` and every
buffer, `deletable_range buffer` returns
`some (round4 (start+buffer), round4 (end-buffer))` exactly when
`end - buffer > start + buffer + 0.001`, and `none` otherwise; in
particular it returns `none` whenever `end - start < 2*buffer + 0.001`. -/
theorem C5_deletable_range_spec (s : Silence) (b : ℚ) (h : s.start < s.stop) :
    (s.deletable_range b =
      if s.start + b + 0.001 < s.stop - b
      then some (round4 (s.start + b), round4 (s.stop - b)) else none)
    ∧ (s.stop - s.start < 2 * b + 0.001 → s.deletable_range b = none) := by
  constructor
  · rfl
  · intro hshort
    simp only [Silence.deletable_range, ite_eq_right_iff]
    intro hlt
    exfalso; linarith

/-- Witness for C5 at `Silence(0, 1)`, buffer `0.05`. -/
theorem C5_witness :
    ((Silence.mk 0 1 true).deletable_range 0.05 =
      if (0 : ℚ) + 0.05 + 0.001 < 1 - 0.05
      then some (round4 ((0 : ℚ) + 0.05), round4 ((1 : ℚ) - 0.05)) else none)
    ∧ ((1 : ℚ) - 0 < 2 * 0.05 + 0.001 → (Silence.mk 0 1 true).deletable_range 0.05 = none) :=
  C5_deletable_range_spec (Silence.mk 0 1 true) 0.05 (by norm_num)

/-! ## Claim C6 -/

/-- **C6** (confirmed): with an empty deleted-index set, `get_keep_ranges`
returns literally the one-element list `[(0, duration)]`, for every segment
list, buffer and duration. -/
theorem C6_empty_deletion_identity (segments : List Segment) (buffer total_duration : ℚ) :
    get_keep_ranges segments ∅ buffer total_duration = .ok [(0, total_duration)] := by
  simp [get_keep_ranges, Finset.sort_empty, collectDeleted]

/-! ## Claim C7 -/

/-- **C7** (code bug): the specification requires a unit with `start ≥ end`
to be rejected with a `MalformedInput` error, but `build_timeline` performs
no validation whatsoever (no such error exists anywhere in the code): the
malformed unit `("a", 1, 0.5)` flows through and the builder returns a
corrupt timeline — a silence `[0,1]`, the inverted word `[1,0.5]`, and a
silence `[0.5,2]` that overlaps both — with no error. -/
theorem C7_no_malformed_input_check :
    build_timeline [⟨"a", 1, 0.5⟩] [] 2 (mkSilenceSettings (-40) 0.3 0.05) =
      .ok [Segment.silence ⟨0, 1, false⟩, Segment.text ⟨"a", 1, 0.5⟩,
           Segment.silence ⟨0.5, 2, false⟩]
    ∧ ¬((1 : ℚ) < 0.5) := by
  constructor
  · norm_num [build_timeline, sortByStart, List.insertionSort, wordsLoop, isDetectedFrom,
      WORD_GAP_COLLAPSE_S, round4, roundHalfEven, List.getLastD]
  · norm_num

/-! ## Claim C8 -/

/-- A persisted session record with one segment whose deleted-index list
contains the out-of-range index 5. -/
def badSession : SessionData :=
  { video_path := "v.mp4"
    audio_path := "a.wav"
    video_duration := 3
    video_fps := 25
    video_width := 1920
    video_height := 1080
    source_fcpxml := none
    fcpxml_version := "1.11"
    fcpxml_asset_id := "r2"
    fcpxml_format_id := "r1"
    deleted := [5]
    settings_threshold_db := -40
    settings_min_duration := 0.3
    settings_buffer := 0.05
    segments := [SegRec.text "a" 0 3] }

/-- **C8** (code bug): the specification requires loading to reject a
deleted-index list containing an index ≥ segment count, but `Project.load`
performs no validation: it happily produces a `Project` with one segment and
`deleted = [5]`, and the first downstream `get_keep_ranges` call on that
project then raises `IndexError`. -/
theorem C8_load_accepts_out_of_range_index :
    (Project.load badSession).segments.length = 1
    ∧ (Project.load badSession).deleted = [5]
    ∧ get_keep_ranges (Project.load badSession).segments {5}
        (Project.load badSession).silence_settings.buffer
        (Project.load badSession).video_duration = .error .indexError := by
  refine ⟨rfl, rfl, ?_⟩
  norm_num [get_keep_ranges, collectDeleted, Project.load, badSession, SegRec.toSegment,
    Finset.sort_insert, Finset.sort_empty]

/-! ## Claim C10 -/

/-- **C10** (confirmed): neither `build_timeline` nor `get_keep_ranges`
modifies its caller's data: the caller's state (speech-unit list,
detected-silence list, segment list, deleted-index set) is returned
unchanged by both calls.  In the embedding every mutation the source
performs is explicit (the local `segments` accumulator and the `det_idx`
pointer inside `wordsLoop`); none targets the caller state.  The third
conjunct exhibits the micro-gap absorption case: the output holds a freshly
constructed extended `TextSegment ("a", 0, 2.005)` while the caller's list
still holds the original `("a", 0, 1)`. -/
theorem C10_no_argument_mutation :
    (∀ (st : CallerState) (dur : ℚ) (s : SilenceSettings) (b d : ℚ),
      (build_timeline_call st dur s).2 = st ∧ (get_keep_ranges_call st b d).2 = st)
    ∧ (build_timeline_call
        ⟨[⟨"a", 0, 1⟩, ⟨"b", 1, 2⟩, ⟨"c", 2.005, 3⟩], [], [], ∅⟩ 3
        (mkSilenceSettings (-40) 0.3 0.05)).1 =
        .ok [Segment.text ⟨"a", 0, 2.005⟩, Segment.text ⟨"b", 1, 2⟩,
             Segment.text ⟨"c", 2.005, 3⟩]
    ∧ (build_timeline_call
        ⟨[⟨"a", 0, 1⟩, ⟨"b", 1, 2⟩, ⟨"c", 2.005, 3⟩], [], [], ∅⟩ 3
        (mkSilenceSettings (-40) 0.3 0.05)).2.text_segments =
        [⟨"a", 0, 1⟩, ⟨"b", 1, 2⟩, ⟨"c", 2.005, 3⟩] := by
  refine ⟨fun st dur s b d => ⟨rfl, rfl⟩, ?_, rfl⟩
  norm_num [build_timeline_call, build_timeline, sortByStart, List.insertionSort,
    List.orderedInsert, wordsLoop, WORD_GAP_COLLAPSE_S, round4, roundHalfEven,
    List.getLastD]

/-! ## Claim C9 -/

theorem mem_complementLoop_lt {l : List (ℚ × ℚ)} :
    ∀ {c : ℚ} {r : ℚ × ℚ}, r ∈ (complementLoop c l).1 → r.1 + 0.001 < r.2 := by
  induction l with
  | nil => intro c r h; simp [complementLoop] at h
  | cons iv rest ih =>
    intro c r h
    obtain ⟨ds, de⟩ := iv
    simp only [complementLoop] at h
    split_ifs at h with hcut
    · rcases List.mem_cons.1 h with h | h
      · subst h; exact hcut
      · exact ih h
    · exact ih h

/-- **C9** (confirmed): `SilenceSettings` construction sets the buffer to
`max(0.001, round(buffer, 4))`, so the stored buffer is always ≥ 0.001 (a
negative buffer is clamped, and every engine call site passes
`silence_settings.buffer` to the Range Resolver); and no call to
`get_keep_ranges` with a non-negative duration ever returns an inverted
range (`start > end`), whatever buffer value is supplied. -/
theorem C9_buffer_clamped_and_never_inverted :
    (∀ t m b : ℚ, (mkSilenceSettings t m b).buffer = max 0.001 (round4 b)
      ∧ (0.001 : ℚ) ≤ (mkSilenceSettings t m b).buffer)
    ∧ ∀ (segs : List Segment) (D : Finset ℕ) (b dur : ℚ) (keeps : List (ℚ × ℚ)),
        0 ≤ dur → get_keep_ranges segs D b dur = .ok keeps →
        ∀ r ∈ keeps, r.1 ≤ r.2 := by
  constructor
  · exact fun t m b => ⟨rfl, le_max_left _ _⟩
  · intro segs D b dur keeps hdur hok r hr
    rw [get_keep_ranges] at hok
    rcases hcd : collectDeleted segs b (D.sort (· ≤ ·)) with e | ivs
    · rw [hcd] at hok; cases hok
    · rw [hcd] at hok
      dsimp only at hok
      by_cases hemp : ivs = []
      · rw [if_pos hemp] at hok
        cases hok
        simp only [List.mem_singleton] at hr
        subst hr; exact hdur
      · rw [if_neg hemp] at hok
        cases hok
        rcases List.mem_append.1 hr with h | h
        · have := mem_complementLoop_lt h
          linarith
        · split_ifs at h with htail
          · simp only [List.mem_singleton] at h
            subst h
            have := le_round4 dur
            simp only
            linarith
          · simp at h

/-- Witness for C9 at a concrete call: duration 3, no deletions. -/
theorem C9_witness :
    (0 : ℚ) ≤ 3 ∧ ((0 : ℚ), (3 : ℚ)).1 ≤ ((0 : ℚ), (3 : ℚ)).2 :=
  ⟨by norm_num,
    C9_buffer_clamped_and_never_inverted.2 [] ∅ 0.05 3 [(0, 3)] (by norm_num)
      (by simp [get_keep_ranges, Finset.sort_empty, collectDeleted]) (0, 3) (by simp)⟩

/-! ## Claim C1: counterexample -/

/-- **C1** (counterexample): for the single well-formed unit
`("a", 0.005, 1)` (end > start) and duration `1 > 0`, `build_timeline`
returns the one-segment timeline `[Text("a", 0.005, 1)]`: the first
segment's start is `0.005`, which differs from 0 by more than the claimed
`1e-4` tolerance — the sub-10 ms leading gap is silently dropped, so the
result is not a covering of `[0, duration]`. -/
theorem C1_cex :
    build_timeline [⟨"a", 0.005, 1⟩] [] 1 (mkSilenceSettings (-40) 0.3 0.05) =
      .ok [Segment.text ⟨"a", 0.005, 1⟩]
    ∧ (0.005 : ℚ) < 1 ∧ (0 : ℚ) < 1
    ∧ ¬ (|(Segment.text ⟨"a", 0.005, 1⟩ : Segment).start - 0| ≤ 0.0001) := by
  refine ⟨?_, by norm_num, by norm_num, ?_⟩
  · norm_num [build_timeline, sortByStart, List.insertionSort, wordsLoop,
      WORD_GAP_COLLAPSE_S, round4, roundHalfEven, List.getLastD]
  · simp only [Segment.start]
    rw [abs_le]
    norm_num

/-! ## Claim C2: counterexample -/

/-- **C2** (counterexample): for the timeline `[Text("a", 0.0005, 1)]`,
deleted set `{0}`, buffer `0.05`, duration `1`: the single delete interval
is `(0.0005, 1)`, `time_saved = 0.9995` (the merged removed length), but the
keep-range list is empty — the sub-1 ms head gap `(0, 0.0005)` is suppressed
by the resolver's tolerance — so `duration − Σ keep lengths = 1 ≠ 0.9995`.
(`[0]` is the sorted element list of the deleted set `{0}`.) -/
theorem C2_cex :
    get_keep_ranges [.text ⟨"a", 0.0005, 1⟩] {0} 0.05 1 = .ok []
    ∧ time_saved [.text ⟨"a", 0.0005, 1⟩] 0.05 [0] = .ok 0.9995
    ∧ ¬ ((0.9995 : ℚ) = 1 - keepTotal []) := by
  refine ⟨?_, ?_, ?_⟩
  · norm_num [get_keep_ranges, collectDeleted, Finset.sort_insert, Finset.sort_empty,
      Silence.deletable_range, mergeRev, complementLoop, round4, roundHalfEven]
  · norm_num [time_saved, TextSegment.duration]
  · norm_num [keepTotal]

/-! ## Claim C3 -/

theorem overlap_false_of_stop_lt {s : Silence} {gs ge : ℚ} (h : s.stop < gs) :
    ¬ ((0.001 : ℚ) ≤ min s.stop ge - max s.start gs) := by
  have h1 : min s.stop ge ≤ s.stop := min_le_left _ _
  have h2 : gs ≤ max s.start gs := le_max_right _ _
  intro hc; linarith

theorem overlap_false_of_lt_start {s : Silence} {gs ge : ℚ} (h : ge < s.start) :
    ¬ ((0.001 : ℚ) ≤ min s.stop ge - max s.start gs) := by
  have h1 : min s.stop ge ≤ ge := min_le_right _ _
  have h2 : s.start ≤ max s.start gs := le_max_left _ _
  intro hc; linarith

theorem naiveDetected_cons (s : Silence) (l : List Silence) (gs ge : ℚ) :
    naiveDetected (s :: l) gs ge =
      (decide ((0.001 : ℚ) ≤ min s.stop ge - max s.start gs) || naiveDetected l gs ge) := by
  simp [naiveDetected]

/-- The bounded scan (`for` loop with break) over a sorted suffix computes
the same answer as the naive scan of that suffix: the break is sound because
every later interval starts even further right of the gap. -/
theorem scanDet_eq_naive {l : List Silence}
    (hs : List.Sorted (fun a b : Silence => a.start ≤ b.start) l) (gs ge : ℚ) :
    scanDet l gs ge = naiveDetected l gs ge := by
  induction l with
  | nil => rfl
  | cons s rest ih =>
    rw [List.sorted_cons] at hs
    obtain ⟨hall, hrest⟩ := hs
    rw [naiveDetected_cons]
    simp only [scanDet]
    split_ifs with hge hov
    · rw [decide_eq_false (overlap_false_of_lt_start hge)]
      have hnone : naiveDetected rest gs ge = false := by
        simp only [naiveDetected, List.any_eq_false, decide_eq_true_eq]
        exact fun s' hmem =>
          overlap_false_of_lt_start (lt_of_lt_of_le hge (hall s' hmem))
      rw [hnone]; rfl
    · rw [decide_eq_true hov]; rfl
    · rw [decide_eq_false hov, Bool.false_or]
      exact ih hrest

/-- The pointer advance plus scan computes the naive answer for the whole
suffix it is given: intervals skipped by the `while` loop end before the gap
and cannot overlap it. -/
theorem isDetectedFrom_fst {l : List Silence}
    (hs : List.Sorted (fun a b : Silence => a.start ≤ b.start) l) (gs ge : ℚ) :
    (isDetectedFrom l gs ge).1 = naiveDetected l gs ge := by
  induction l with
  | nil => rfl
  | cons s rest ih =>
    rw [List.sorted_cons] at hs
    rw [naiveDetected_cons]
    simp only [isDetectedFrom]
    split_ifs with hstop
    · rw [decide_eq_false (overlap_false_of_stop_lt hstop), Bool.false_or]
      exact ih hs.2
    · exact scanDet_eq_naive (List.sorted_cons.2 hs) gs ge

/-- The pointer only advances: the new suffix is obtained by dropping a
prefix of intervals that all end before the gap start. -/
theorem isDetectedFrom_snd (l : List Silence) (gs ge : ℚ) :
    ∃ d, l = d ++ (isDetectedFrom l gs ge).2 ∧ ∀ s ∈ d, s.stop < gs := by
  induction l with
  | nil => exact ⟨[], rfl, by simp⟩
  | cons s rest ih =>
    simp only [isDetectedFrom]
    split_ifs with hstop
    · obtain ⟨d, hd, hlt⟩ := ih
      refine ⟨s :: d, by rw [List.cons_append, ← hd], ?_⟩
      intro s' hmem
      rcases List.mem_cons.1 hmem with h | h
      · subst h; exact hstop
      · exact hlt s' h
    · exact ⟨[], rfl, by simp⟩

/-- Intervals that end before the gap start contribute nothing to the naive
check. -/
theorem naiveDetected_append_left {d l : List Silence} {gs ge : ℚ}
    (h : ∀ s ∈ d, s.stop < gs) :
    naiveDetected (d ++ l) gs ge = naiveDetected l gs ge := by
  simp only [naiveDetected, List.any_append]
  have hfalse : (d.any fun s => decide ((0.001 : ℚ) ≤ min s.stop ge - max s.start gs)) = false := by
    simp only [List.any_eq_false, decide_eq_true_eq]
    exact fun s hm => overlap_false_of_stop_lt (h s hm)
  rw [hfalse, Bool.false_or]

/-- Invariant-carrying form of the classification equivalence: if the full
sorted detected list splits as `d ++ suf` with everything in `d` ending
before `g0`, and the upcoming gaps all start at `g0` or later and are
processed left to right, then the pointer classification from `suf` agrees
with the naive classification over the full list on every gap. -/
theorem classifySilences_naive (dets : List Silence)
    (hsorted : List.Sorted (fun a b : Silence => a.start ≤ b.start) dets) :
    ∀ (gaps : List (ℚ × ℚ)) (d suf : List Silence) (g0 : ℚ),
      dets = d ++ suf → (∀ s ∈ d, s.stop < g0) →
      List.Chain' (fun p q : ℚ × ℚ => p.1 ≤ q.1) gaps →
      (∀ p ∈ gaps.head?, g0 ≤ p.1) →
      classifySilences suf gaps =
        gaps.map fun g => Silence.mk g.1 g.2 (naiveDetected dets g.1 g.2) := by
  intro gaps
  induction gaps with
  | nil => intro d suf g0 _ _ _ _; rfl
  | cons g rest ih =>
    intro d suf g0 hdets hd hchain hhead
    obtain ⟨gs, ge⟩ := g
    have hg0 : g0 ≤ gs := hhead (gs, ge) rfl
    have hsuf : List.Sorted (fun a b : Silence => a.start ≤ b.start) suf :=
      ((List.pairwise_append.1 (hdets ▸ hsorted)).2).1
    obtain ⟨d2, hsplit, hd2⟩ := isDetectedFrom_snd suf gs ge
    have hfst : (isDetectedFrom suf gs ge).1 = naiveDetected dets gs ge := by
      rw [isDetectedFrom_fst hsuf, hdets,
        naiveDetected_append_left (fun s hm => lt_of_lt_of_le (hd s hm) hg0)]
    simp only [classifySilences, List.map_cons]
    rw [hfst]
    refine congrArg _ ?_
    have hcc := List.chain'_cons'.1 hchain
    refine ih (d ++ d2) (isDetectedFrom suf gs ge).2 gs ?_ ?_ hcc.2 ?_
    · rw [List.append_assoc, ← hsplit]; exact hdets
    · intro s hm
      rcases List.mem_append.1 hm with h | h
      · exact lt_of_lt_of_le (hd s h) hg0
      · exact hd2 s h
    · intro p hp
      exact (hcc.1 p hp :)

/-- **C3** (confirmed): for every sorted detected-silence list and every
left-to-right (start-monotone) gap sequence, the builder's stateful
monotonic-pointer classification emits, for each gap, a `Silence` carrying
the gap's full unshrunk bounds whose `is_detected` flag equals the naive
check that scans every detected interval for a ≥ 1 ms overlap; moreover the
builder never reads the settings (the buffer is not applied at build time),
so its output is identical for any two settings values. -/
theorem C3_pointer_equals_naive (dets : List Silence) (gaps : List (ℚ × ℚ))
    (hsorted : List.Sorted (fun a b : Silence => a.start ≤ b.start) dets)
    (hmono : List.Chain' (fun p q : ℚ × ℚ => p.1 ≤ q.1) gaps) :
    classifySilences dets gaps =
      (gaps.map fun g => Silence.mk g.1 g.2 (naiveDetected dets g.1 g.2))
    ∧ ∀ (ts : List TextSegment) (dur : ℚ) (s1 s2 : SilenceSettings),
        build_timeline ts dets dur s1 = build_timeline ts dets dur s2 := by
  refine ⟨?_, fun _ _ _ _ => rfl⟩
  match gaps, hmono with
  | [], _ => rfl
  | (gs, ge) :: rest, hmono =>
    exact classifySilences_naive dets hsorted ((gs, ge) :: rest) [] dets gs rfl
      (by simp) hmono (fun p hp => by cases hp; exact le_refl _)

/-- Witness for C3: one detected interval `[0.5, 2.5]`, two gaps. -/
theorem C3_witness :
    classifySilences [⟨0.5, 2.5, true⟩] [(0.5, 2.5), (3, 4)] =
      ([((0.5 : ℚ), (2.5 : ℚ)), (3, 4)].map fun g =>
        Silence.mk g.1 g.2 (naiveDetected [⟨0.5, 2.5, true⟩] g.1 g.2)) :=
  (C3_pointer_equals_naive [⟨0.5, 2.5, true⟩] [(0.5, 2.5), (3, 4)]
    (by simp) (by norm_num [List.chain'_cons])).1

/-! ## Claim C1: amended coverage theorem -/

/-- Two timeline segments are adjacent within the specification's `1e-4`
tolerance: the second starts where the first ends, up to `0.0001` s. -/
def segAdj (a b : Segment) : Prop := |b.start - a.stop| ≤ 0.0001

/-- Two consecutive sorted speech units leave a rounded gap that is either
exactly zero or larger than the 10 ms collapse threshold (the amendment
forced by the builder's handling of micro-gaps). -/
def gapOK (a b : TextSegment) : Prop :=
  round4 b.start - round4 a.stop = 0 ∨ WORD_GAP_COLLAPSE_S < round4 b.start - round4 a.stop

theorem abs_round4_tol (x : ℚ) : |round4 x - x| ≤ 0.0001 :=
  le_trans (abs_round4_sub x) (by norm_num)

theorem abs_round4_tol' (x : ℚ) : |x - round4 x| ≤ 0.0001 := by
  rw [abs_sub_comm]; exact abs_round4_tol x

theorem getLast?_cons_of_ne {α : Type} (a : α) {l : List α} (h : l ≠ []) :
    (a :: l).getLast? = l.getLast? := by
  rcases l with _ | ⟨b, t⟩
  · exact absurd rfl h
  · exact List.getLast?_cons_cons

/-- Main-loop lemma for the amended C1: if every rounded inter-word gap is
zero or exceeds the 10 ms threshold, the loop succeeds, contributes the
segments `out` (word, optional gap silence, word, ...) on top of the
accumulator, starts with the first word, ends with the last word
(unmodified — no absorption happens), and `out` is chained within the
`1e-4` adjacency tolerance. -/
theorem wordsLoop_spec :
    ∀ (ws : List TextSegment) (w : TextSegment) (revAcc : List Segment) (suf : List Silence),
      List.Chain' gapOK (w :: ws) →
      ∃ out sufOut,
        wordsLoop revAcc suf (w :: ws) = .ok (out.reverse ++ revAcc, sufOut)
        ∧ out.head? = some (Segment.text w)
        ∧ (∃ wl, (w :: ws).getLast? = some wl ∧ out.getLast? = some (Segment.text wl))
        ∧ List.Chain' segAdj out := by
  intro ws
  induction ws with
  | nil =>
    intro w revAcc suf _
    exact ⟨[Segment.text w], suf, rfl, rfl, ⟨w, rfl, rfl⟩, by simp⟩
  | cons next rest ih =>
    intro w revAcc suf hchain
    rcases List.chain'_cons.1 hchain with ⟨hg, hrest⟩
    rcases hg with hzero | hbig
    · -- zero rounded gap: no silence emitted, no absorption
      obtain ⟨out', sufOut, heq, hhd, ⟨wl, hwl1, hwl2⟩, hch⟩ :=
        ih next (Segment.text w :: revAcc) suf hrest
      refine ⟨Segment.text w :: out', sufOut, ?_, rfl, ⟨wl, ?_, ?_⟩, ?_⟩
      · simp only [wordsLoop]
        rw [hzero]
        rw [if_neg (by norm_num [WORD_GAP_COLLAPSE_S]), if_neg (by norm_num), heq]
        simp
      · rw [List.getLast?_cons_cons]; exact hwl1
      · rcases out' with _ | ⟨o, out''⟩
        · cases hhd
        · rw [List.getLast?_cons_cons]; exact hwl2
      · rcases out' with _ | ⟨o, out''⟩
        · cases hhd
        · have ho : o = Segment.text next := by
            have := hhd; simpa using this
          subst ho
          refine List.chain'_cons.2 ⟨?_, hch⟩
          simp only [segAdj, Segment.start, Segment.stop]
          have e1 : |round4 w.stop - w.stop| ≤ 1/20000 := abs_round4_sub w.stop
          have e2 : |next.start - round4 next.start| ≤ 1/20000 := by
            rw [abs_sub_comm]; exact abs_round4_sub next.start
          have hz : round4 next.start = round4 w.stop := by linarith [hzero]
          have : next.start - w.stop =
              (next.start - round4 next.start) + (round4 w.stop - w.stop) := by
            rw [hz]; ring
          rw [this]
          calc |(next.start - round4 next.start) + (round4 w.stop - w.stop)|
              ≤ |next.start - round4 next.start| + |round4 w.stop - w.stop| := abs_add _ _
            _ ≤ 0.0001 := by linarith
    · -- large gap: a full-bounds silence is emitted between the words
      obtain ⟨out', sufOut, heq, hhd, ⟨wl, hwl1, hwl2⟩, hch⟩ :=
        ih next
          (Segment.silence ⟨round4 w.stop, round4 next.start,
            (isDetectedFrom suf (round4 w.stop) (round4 next.start)).1⟩
            :: Segment.text w :: revAcc)
          (isDetectedFrom suf (round4 w.stop) (round4 next.start)).2 hrest
      refine ⟨Segment.text w ::
          Segment.silence ⟨round4 w.stop, round4 next.start,
            (isDetectedFrom suf (round4 w.stop) (round4 next.start)).1⟩ :: out',
        sufOut, ?_, rfl, ⟨wl, ?_, ?_⟩, ?_⟩
      · simp only [wordsLoop]
        rw [if_pos hbig, heq]
        simp
      · rw [List.getLast?_cons_cons]; exact hwl1
      · rcases out' with _ | ⟨o, out''⟩
        · cases hhd
        · rw [List.getLast?_cons_cons, List.getLast?_cons_cons]; exact hwl2
      · rcases out' with _ | ⟨o, out''⟩
        · cases hhd
        · have ho : o = Segment.text next := by
            have := hhd; simpa using this
          subst ho
          refine List.chain'_cons.2 ⟨?_, List.chain'_cons.2 ⟨?_, hch⟩⟩
          · simp only [segAdj, Segment.start, Segment.stop]
            exact abs_round4_tol w.stop
          · simp only [segAdj, Segment.start, Segment.stop]
            exact abs_round4_tol' next.start

/-- **C1** (corrected): the claimed gapless covering of `[0, duration]`
within `1e-4` holds only under the amendments forced by the counterexample
`C1_cex` and by the micro-gap handling: every rounded inter-word gap must be
exactly zero or larger than the 10 ms collapse threshold, the first sorted
unit must start at 0 or after more than 10 ms, and the last sorted unit must
end at the duration or more than 10 ms before it.  Under those hypotheses
`build_timeline` succeeds and returns a nonempty timeline whose first
segment starts at 0, whose last segment ends at the duration (within
`1e-4`), and whose consecutive segments are adjacent within `1e-4` (hence
neither gaps nor overlaps beyond the tolerance). -/
theorem C1_timeline_coverage (ts : List TextSegment) (dets : List Silence)
    (dur : ℚ) (settings : SilenceSettings)
    (hpos : ∀ u ∈ ts, u.start < u.stop)
    (hdur : 0 < dur)
    (hgap : List.Chain' gapOK (sortByStart ts))
    (hhead : ∀ w ∈ (sortByStart ts).head?, w.start = 0 ∨ WORD_GAP_COLLAPSE_S < w.start)
    (htail : ∀ w ∈ (sortByStart ts).getLast?,
        w.stop = dur ∨ WORD_GAP_COLLAPSE_S < dur - round4 w.stop) :
    ∃ segs, build_timeline ts dets dur settings = .ok segs
      ∧ segs ≠ []
      ∧ (∀ s ∈ segs.head?, s.start = 0)
      ∧ (∀ s ∈ segs.getLast?, |s.stop - dur| ≤ 0.0001)
      ∧ List.Chain' segAdj segs := by
  rcases hw : sortByStart ts with _ | ⟨w0, wrest⟩
  · -- no speech: whole clip wrapped as one silence
    refine ⟨[Segment.silence ⟨0, round4 dur, false⟩], ?_, by simp, ?_, ?_, by simp⟩
    · simp [build_timeline, hw]
    · intro s hs
      simp only [List.head?_cons, Option.mem_def, Option.some.injEq] at hs
      subst hs; rfl
    · intro s hs
      simp only [List.getLast?_singleton, Option.mem_def, Option.some.injEq] at hs
      subst hs
      simpa [Segment.stop] using abs_round4_tol dur
  · have hgsort : List.Chain' gapOK (w0 :: wrest) := by rw [← hw]; exact hgap
    have hh0 := hhead w0 (by rw [hw]; rfl)
    -- the leading-silence accumulator
    rcases hh0 with h0 | hlead
    · -- w0 starts at 0: no leading silence
      have hifl : ¬ (WORD_GAP_COLLAPSE_S < w0.start) := by
        rw [h0]; norm_num [WORD_GAP_COLLAPSE_S]
      obtain ⟨out, sufOut, heq, hhd, ⟨wl, hwl1, hwl2⟩, hch⟩ :=
        wordsLoop_spec wrest w0 [] (sortSilences dets) hgsort
      have houtne : out ≠ [] := by
        intro h; rw [h] at hhd; cases hhd
      have hgld : (w0 :: wrest).getLastD w0 = wl := by
        rw [List.getLastD_eq_getLast?, hwl1]; rfl
      have hht := htail wl (by rw [hw]; exact hwl1)
      rcases hht with ht1 | ht2
      · -- last word ends exactly at the duration: no trailing silence
        have hift : ¬ (WORD_GAP_COLLAPSE_S < dur - round4 ((w0 :: wrest).getLastD w0).stop) := by
          rw [hgld, ht1]
          have h1 := le_round4 dur
          norm_num [WORD_GAP_COLLAPSE_S]
          linarith
        refine ⟨out, ?_, houtne, ?_, ?_, hch⟩
        · simp only [build_timeline, hw]
          rw [if_neg hifl, heq]
          dsimp only
          rw [if_neg hift]
          simp
        · intro s hs
          rw [hhd] at hs
          simp only [Option.mem_def, Option.some.injEq] at hs
          subst hs
          simpa [Segment.start] using h0
        · intro s hs
          rw [hwl2] at hs
          simp only [Option.mem_def, Option.some.injEq] at hs
          subst hs
          norm_num [Segment.stop, ht1]
      · -- trailing silence emitted
        have hift : WORD_GAP_COLLAPSE_S < dur - round4 ((w0 :: wrest).getLastD w0).stop := by
          rw [hgld]; exact ht2
        refine ⟨out ++ [Segment.silence ⟨round4 wl.stop, round4 dur,
            (isDetectedFrom sufOut (round4 ((w0 :: wrest).getLastD w0).stop) (round4 dur)).1⟩],
          ?_, by simp, ?_, ?_, ?_⟩
        · simp only [build_timeline, hw]
          rw [if_neg hifl, heq]
          dsimp only
          rw [if_pos hift, hgld]
          simp
        · intro s hs
          rw [List.head?_append_of_ne_nil _ houtne, hhd] at hs
          simp only [Option.mem_def, Option.some.injEq] at hs
          subst hs
          simpa [Segment.start] using h0
        · intro s hs
          rw [List.getLast?_concat] at hs
          simp only [Option.mem_def, Option.some.injEq] at hs
          subst hs
          simpa [Segment.stop] using abs_round4_tol dur
        · rw [List.chain'_append]
          refine ⟨hch, by simp, ?_⟩
          intro x hx y hy
          rw [hwl2] at hx
          simp only [Option.mem_def, Option.some.injEq] at hx
          simp only [List.head?_cons, Option.mem_def, Option.some.injEq] at hy
          subst hx; subst hy
          simp only [segAdj, Segment.start, Segment.stop]
          exact abs_round4_tol wl.stop
    · -- leading silence (0, round4 w0.start) emitted
      obtain ⟨out, sufOut, heq, hhd, ⟨wl, hwl1, hwl2⟩, hch⟩ :=
        wordsLoop_spec wrest w0
          [Segment.silence ⟨0, round4 w0.start,
            (isDetectedFrom (sortSilences dets) 0 (round4 w0.start)).1⟩]
          (sortSilences dets) hgsort
      have houtne : out ≠ [] := by
        intro h; rw [h] at hhd; cases hhd
      have hgld : (w0 :: wrest).getLastD w0 = wl := by
        rw [List.getLastD_eq_getLast?, hwl1]; rfl
      have hlchain : List.Chain' segAdj
          (Segment.silence ⟨0, round4 w0.start,
            (isDetectedFrom (sortSilences dets) 0 (round4 w0.start)).1⟩ :: out) := by
        rw [List.chain'_cons']
        refine ⟨?_, hch⟩
        intro y hy
        rw [hhd] at hy
        simp only [Option.mem_def, Option.some.injEq] at hy
        subst hy
        simp only [segAdj, Segment.start, Segment.stop]
        exact abs_round4_tol' w0.start
      have hht := htail wl (by rw [hw]; exact hwl1)
      rcases hht with ht1 | ht2
      · have hift : ¬ (WORD_GAP_COLLAPSE_S < dur - round4 ((w0 :: wrest).getLastD w0).stop) := by
          rw [hgld, ht1]
          have h1 := le_round4 dur
          norm_num [WORD_GAP_COLLAPSE_S]
          linarith
        refine ⟨Segment.silence ⟨0, round4 w0.start,
            (isDetectedFrom (sortSilences dets) 0 (round4 w0.start)).1⟩ :: out,
          ?_, by simp, ?_, ?_, hlchain⟩
        · simp only [build_timeline, hw]
          rw [if_pos hlead, heq]
          dsimp only
          rw [if_neg hift]
          simp
        · intro s hs
          simp only [List.head?_cons, Option.mem_def, Option.some.injEq] at hs
          subst hs; rfl
        · intro s hs
          rw [getLast?_cons_of_ne _ houtne, hwl2] at hs
          simp only [Option.mem_def, Option.some.injEq] at hs
          subst hs
          norm_num [Segment.stop, ht1]
      · have hift : WORD_GAP_COLLAPSE_S < dur - round4 ((w0 :: wrest).getLastD w0).stop := by
          rw [hgld]; exact ht2
        refine ⟨(Segment.silence ⟨0, round4 w0.start,
            (isDetectedFrom (sortSilences dets) 0 (round4 w0.start)).1⟩ :: out)
            ++ [Segment.silence ⟨round4 wl.stop, round4 dur,
              (isDetectedFrom sufOut (round4 ((w0 :: wrest).getLastD w0).stop) (round4 dur)).1⟩],
          ?_, by simp, ?_, ?_, ?_⟩
        · simp only [build_timeline, hw]
          rw [if_pos hlead, heq]
          dsimp only
          rw [if_pos hift, hgld]
          simp
        · intro s hs
          rw [List.head?_append_of_ne_nil _ (by simp)] at hs
          simp only [List.head?_cons, Option.mem_def, Option.some.injEq] at hs
          subst hs; rfl
        · intro s hs
          rw [List.getLast?_concat] at hs
          simp only [Option.mem_def, Option.some.injEq] at hs
          subst hs
          simpa [Segment.stop] using abs_round4_tol dur
        · rw [List.chain'_append]
          refine ⟨hlchain, by simp, ?_⟩
          intro x hx y hy
          rw [getLast?_cons_of_ne _ houtne, hwl2] at hx
          simp only [Option.mem_def, Option.some.injEq] at hx
          simp only [List.head?_cons, Option.mem_def, Option.some.injEq] at hy
          subst hx; subst hy
          simp only [segAdj, Segment.start, Segment.stop]
          exact abs_round4_tol wl.stop

/-- Witness for the amended C1 at the specification's Scenario A. -/
theorem C1_witness :
    ∃ segs, build_timeline [⟨"Hello", 0, 0.5⟩, ⟨"world", 2.5, 3⟩] [⟨0.5, 2.5, true⟩] 3
        (mkSilenceSettings (-40) 0.3 0.05) = .ok segs
      ∧ segs ≠ []
      ∧ (∀ s ∈ segs.head?, s.start = 0)
      ∧ (∀ s ∈ segs.getLast?, |s.stop - 3| ≤ 0.0001)
      ∧ List.Chain' segAdj segs :=
  C1_timeline_coverage [⟨"Hello", 0, 0.5⟩, ⟨"world", 2.5, 3⟩] [⟨0.5, 2.5, true⟩] 3
    (mkSilenceSettings (-40) 0.3 0.05)
    (by norm_num)
    (by norm_num)
    (by norm_num [sortByStart, List.insertionSort, List.orderedInsert, gapOK,
      WORD_GAP_COLLAPSE_S, round4, roundHalfEven, List.chain'_cons])
    (by norm_num [sortByStart, List.insertionSort, List.orderedInsert])
    (by norm_num [sortByStart, List.insertionSort, List.orderedInsert])

/-! ## Claim C2: amended theorem -/

theorem keepTotal_nil : keepTotal [] = 0 := rfl

theorem keepTotal_cons (p : ℚ × ℚ) (l : List (ℚ × ℚ)) :
    keepTotal (p :: l) = (p.2 - p.1) + keepTotal l := by
  simp [keepTotal]

theorem keepTotal_append (l₁ l₂ : List (ℚ × ℚ)) :
    keepTotal (l₁ ++ l₂) = keepTotal l₁ + keepTotal l₂ := by
  simp [keepTotal]

theorem keepTotal_perm {l₁ l₂ : List (ℚ × ℚ)} (h : l₁.Perm l₂) :
    keepTotal l₁ = keepTotal l₂ := by
  simp only [keepTotal]
  exact (h.map fun r => r.2 - r.1).sum_eq

theorem keepTotal_sortPairs (l : List (ℚ × ℚ)) : keepTotal (sortPairs l) = keepTotal l :=
  keepTotal_perm (List.perm_insertionSort _ l)

/-- Merging a list whose consecutive intervals are strictly separated leaves
it unchanged (general form on the reversed accumulator). -/
theorem mergeRev_of_separated :
    ∀ (l : List (ℚ × ℚ)) (p : ℚ × ℚ) (acc : List (ℚ × ℚ)),
      List.Chain' (fun p q : ℚ × ℚ => p.2 < q.1) (p :: l) →
      mergeRev (p :: acc) l = l.reverse ++ p :: acc := by
  intro l
  induction l with
  | nil => intro p acc _; rfl
  | cons x rest ih =>
    intro p acc hch
    rcases List.chain'_cons.1 hch with ⟨hrel, hrest⟩
    obtain ⟨ms, me⟩ := p
    obtain ⟨s, e⟩ := x
    simp only [mergeRev]
    rw [if_neg (not_le.2 hrel)]
    rw [ih (s, e) ((ms, me) :: acc) hrest]
    simp

/-- Merging a strictly separated sorted list is the identity. -/
theorem merge_eq_self_of_separated {l : List (ℚ × ℚ)}
    (h : List.Chain' (fun p q : ℚ × ℚ => p.2 < q.1) l) :
    (mergeRev [] l).reverse = l := by
  rcases l with _ | ⟨x, rest⟩
  · rfl
  · have : mergeRev [] (x :: rest) = mergeRev [x] rest := by
      obtain ⟨s, e⟩ := x; rfl
    rw [this, mergeRev_of_separated rest x [] h]
    simp

/-- Complement total on an exact (4-decimal) interval list: if consecutive
intervals — and the virtual boundaries `cursor` at the front and `duration`
at the back — either touch exactly or are separated by more than 1 ms, then
no keep range is suppressed and the kept total is exactly the span minus the
deleted lengths. -/
theorem complement_total (dur : ℚ) (hQd : Q4 dur) :
    ∀ (l : List (ℚ × ℚ)) (cursor : ℚ),
      (∀ p ∈ l, Q4 p.1 ∧ Q4 p.2) →
      List.Chain' (fun p q : ℚ × ℚ => p.2 = q.1 ∨ p.2 + 0.001 < q.1)
        ((cursor, cursor) :: l ++ [(dur, dur)]) →
      keepTotal ((complementLoop cursor l).1
          ++ if (complementLoop cursor l).2 < dur - 0.001 then
               [((complementLoop cursor l).2, round4 dur)] else [])
        = dur - cursor - keepTotal l := by
  intro l
  induction l with
  | nil =>
    intro cursor _ hch
    have hrel : cursor = dur ∨ cursor + 0.001 < dur := by
      simpa using (List.chain'_cons'.1 hch).1 (dur, dur) (by simp)
    simp only [complementLoop]
    rcases hrel with he | hlt
    · subst he
      rw [if_neg (by norm_num)]
      simp [keepTotal]
    · rw [if_pos (by linarith)]
      rw [round4_eq_of_q4 hQd]
      simp [keepTotal]
  | cons x rest ih =>
    intro cursor hQ hch
    obtain ⟨s, e⟩ := x
    have hQx := hQ (s, e) (List.mem_cons_self _ _)
    have hrel : cursor = s ∨ cursor + 0.001 < s := by
      simpa using (List.chain'_cons'.1 hch).1 (s, e) (by simp)
    have htl : List.Chain' (fun p q : ℚ × ℚ => p.2 = q.1 ∨ p.2 + 0.001 < q.1)
        ((s, e) :: rest ++ [(dur, dur)]) := (List.chain'_cons'.1 hch).2
    have hch3 : List.Chain' (fun p q : ℚ × ℚ => p.2 = q.1 ∨ p.2 + 0.001 < q.1)
        ((e, e) :: rest ++ [(dur, dur)]) :=
      List.chain'_cons'.2 ⟨(List.chain'_cons'.1 htl).1, (List.chain'_cons'.1 htl).2⟩
    have hrec := ih e (fun p hp => hQ p (List.mem_cons_of_mem _ hp)) hch3
    simp only [complementLoop, round4_eq_of_q4 hQx.1, round4_eq_of_q4 hQx.2]
    rcases hrel with heq | hlt
    · rw [if_neg (by rw [heq]; norm_num)]
      rw [hrec, keepTotal_cons]
      simp only
      rw [heq]; ring
    · rw [if_pos (by linarith)]
      rw [List.cons_append, keepTotal_cons, hrec, keepTotal_cons]
      simp only
      ring

/-- `time_saved` sums exactly the lengths of the intervals that
`collectDeleted` produces for the same index list. -/
theorem time_saved_eq_collect (segs : List Segment) (b : ℚ) :
    ∀ (idxs : List ℕ) (ivs : List (ℚ × ℚ)),
      collectDeleted segs b idxs = .ok ivs →
      time_saved segs b idxs = .ok (keepTotal ivs) := by
  intro idxs
  induction idxs with
  | nil =>
    intro ivs h
    simp only [collectDeleted] at h
    cases h
    rfl
  | cons idx rest ih =>
    intro ivs h
    simp only [collectDeleted] at h
    simp only [time_saved]
    rcases hget : segs.get? idx with _ | seg
    · rw [hget] at h; cases h
    · rw [hget] at h
      dsimp only at h ⊢
      rcases hrest : collectDeleted segs b rest with e | tail
      · rw [hrest] at h; cases h
      · rw [hrest] at h
        rw [ih tail hrest]
        dsimp only at h ⊢
        rcases seg with t | sil
        · dsimp only at h ⊢
          cases h
          rw [keepTotal_cons]
          dsimp only
          rw [TextSegment.duration]
          norm_num
          ring
        · dsimp only at h ⊢
          rcases hdr : sil.deletable_range b with _ | r
          · rw [hdr] at h; cases h; rfl
          · rw [hdr] at h; cases h
            rw [keepTotal_cons]
            norm_num
            ring

/-- **C2** (corrected): `time_saved` always equals the sum of the
*individual* removed-interval lengths, and the claimed exact identity
`time_saved = duration − Σ keep-lengths = Σ merged delete-lengths` holds
under the amendments forced by `C2_cex`: all removed intervals are exact
4-decimal values which, after sorting, are pairwise separated by more than
1 ms, start at 0 or more than 1 ms after it, and end at the duration or more
than 1 ms before it (so no interval merging and no sub-1 ms keep-range
suppression occurs). -/
theorem C2_time_saved_identity (segs : List Segment) (D : Finset ℕ) (b dur : ℚ)
    (ivs : List (ℚ × ℚ))
    (hcol : collectDeleted segs b (D.sort (· ≤ ·)) = .ok ivs)
    (hQd : Q4 dur)
    (hQ : ∀ p ∈ ivs, Q4 p.1 ∧ Q4 p.2)
    (hsep : List.Chain' (fun p q : ℚ × ℚ => p.2 + 0.001 < q.1) (sortPairs ivs))
    (hhead : ∀ p ∈ (sortPairs ivs).head?, p.1 = 0 ∨ (0.001 : ℚ) < p.1)
    (htail : ∀ p ∈ (sortPairs ivs).getLast?, p.2 = dur ∨ p.2 + 0.001 < dur) :
    ∃ keeps, get_keep_ranges segs D b dur = .ok keeps
      ∧ time_saved segs b (D.sort (· ≤ ·)) = .ok (keepTotal ivs)
      ∧ keepTotal ivs = dur - keepTotal keeps
      ∧ keepTotal ((mergeRev [] (sortPairs ivs)).reverse) = keepTotal ivs := by
  have hts := time_saved_eq_collect segs b (D.sort (· ≤ ·)) ivs hcol
  have hmerge : (mergeRev [] (sortPairs ivs)).reverse = sortPairs ivs :=
    merge_eq_self_of_separated (hsep.imp fun a b h => by
      have h1 : (0 : ℚ) < 0.001 := by norm_num
      linarith)
  by_cases hemp : ivs = []
  · subst hemp
    refine ⟨[(0, dur)], ?_, hts, ?_, ?_⟩
    · rw [get_keep_ranges, hcol]; rfl
    · simp [keepTotal]
    · rw [hmerge]; rfl
  · have hperm : (sortPairs ivs).Perm ivs := List.perm_insertionSort _ ivs
    have hsivs : sortPairs ivs ≠ [] := by
      intro h
      rw [h] at hperm
      exact hemp (List.Perm.eq_nil hperm.symm)
    -- assemble the sentinel chain for the complement lemma
    have hchain : List.Chain' (fun p q : ℚ × ℚ => p.2 = q.1 ∨ p.2 + 0.001 < q.1)
        (((0 : ℚ), (0 : ℚ)) :: sortPairs ivs ++ [(dur, dur)]) := by
      show List.Chain' (fun p q : ℚ × ℚ => p.2 = q.1 ∨ p.2 + 0.001 < q.1)
        (((((0 : ℚ), (0 : ℚ)) :: sortPairs ivs)) ++ [(dur, dur)])
      rw [List.chain'_append]
      refine ⟨List.chain'_cons'.2 ⟨?_, hsep.imp fun a b h => Or.inr h⟩,
        List.chain'_singleton _, ?_⟩
      · intro y hy
        rcases hhead y hy with h0 | h1
        · exact Or.inl h0.symm
        · exact Or.inr (by simpa using h1)
      · intro x hx y hy
        rw [getLast?_cons_of_ne _ hsivs] at hx
        simp only [List.head?_cons, Option.mem_def, Option.some.injEq] at hy
        subst hy
        rcases htail x hx with h0 | h1
        · exact Or.inl h0
        · exact Or.inr (by simpa using h1)
    have hQs : ∀ p ∈ sortPairs ivs, Q4 p.1 ∧ Q4 p.2 := fun p hp => hQ p (hperm.subset hp)
    have hct := complement_total dur hQd (sortPairs ivs) 0 hQs hchain
    refine ⟨(complementLoop 0 (sortPairs ivs)).1
        ++ if (complementLoop 0 (sortPairs ivs)).2 < dur - 0.001 then
             [((complementLoop 0 (sortPairs ivs)).2, round4 dur)] else [],
      ?_, hts, ?_, by rw [hmerge, keepTotal_sortPairs]⟩
    · rw [get_keep_ranges, hcol]
      dsimp only
      rw [if_neg hemp, hmerge]
    · rw [hct, keepTotal_sortPairs]
      ring

/-- Witness for the amended C2 at the specification's Scenario B. -/
theorem C2_witness :
    ∃ keeps, get_keep_ranges
        [.text ⟨"Hello", 0, 0.5⟩, .silence ⟨0.5, 2.5, true⟩, .text ⟨"world", 2.5, 3⟩]
        {1} 0.05 3 = .ok keeps
      ∧ time_saved
          [.text ⟨"Hello", 0, 0.5⟩, .silence ⟨0.5, 2.5, true⟩, .text ⟨"world", 2.5, 3⟩]
          0.05 (Finset.sort (· ≤ ·) {1}) = .ok (keepTotal [(0.55, 2.45)])
      ∧ keepTotal [(0.55, 2.45)] = 3 - keepTotal keeps
      ∧ keepTotal ((mergeRev [] (sortPairs [(0.55, 2.45)])).reverse) = keepTotal [(0.55, 2.45)] :=
  C2_time_saved_identity
    [.text ⟨"Hello", 0, 0.5⟩, .silence ⟨0.5, 2.5, true⟩, .text ⟨"world", 2.5, 3⟩]
    {1} 0.05 3 [(0.55, 2.45)]
    (by norm_num [collectDeleted, Finset.sort_insert, Finset.sort_empty,
      Silence.deletable_range, round4, roundHalfEven])
    ⟨30000, by norm_num⟩
    (by intro p hp
        simp only [List.mem_singleton] at hp
        subst hp
        exact ⟨⟨5500, by norm_num⟩, ⟨24500, by norm_num⟩⟩)
    (by norm_num [sortPairs, List.insertionSort])
    (by norm_num [sortPairs, List.insertionSort])
    (by norm_num [sortPairs, List.insertionSort])

/-! ## Claim C4: amended monotonic-shrink theorem -/

/-- The delete interval(s) (zero or one) contributed by deleted index `idx`
(the loop body of `collectDeleted`). -/
def delIv (segs : List Segment) (b : ℚ) (idx : ℕ) : List (ℚ × ℚ) :=
  match segs.get? idx with
  | none => []
  | some (.silence s) =>
    match s.deletable_range b with
    | some r => [r]
    | none => []
  | some (.text t) => [(t.start, t.stop)]

/-- On valid indices, `collectDeleted` succeeds and is the concatenation of
the per-index contributions. -/
theorem collectDeleted_eq_flatMap (segs : List Segment) (b : ℚ) :
    ∀ (l : List ℕ), (∀ i ∈ l, i < segs.length) →
      collectDeleted segs b l = .ok (l.flatMap (delIv segs b)) := by
  intro l
  induction l with
  | nil => intro _; rfl
  | cons idx rest ih =>
    intro hvalid
    have hidx : idx < segs.length := hvalid idx (List.mem_cons_self _ _)
    have hrest := ih fun i hi => hvalid i (List.mem_cons_of_mem _ hi)
    rcases hget : segs.get? idx with _ | seg
    · exact absurd (List.get?_eq_get hidx) (by rw [hget]; simp)
    · simp only [collectDeleted, hget, hrest, List.flatMap_cons, delIv]
      rcases seg with t | sil
      · rfl
      · rcases hdr : sil.deletable_range b with _ | r <;> simp [hdr]

/-- A delete interval that is exact (4-decimal), properly ordered and inside
`[0, dur]`. -/
def Good (dur : ℚ) (p : ℚ × ℚ) : Prop :=
  Q4 p.1 ∧ Q4 p.2 ∧ 0 ≤ p.1 ∧ p.1 ≤ p.2 ∧ p.2 ≤ dur

/-- Under exact in-bounds segments and a non-negative exact buffer, every
contributed delete interval is `Good`. -/
theorem delIv_good (segs : List Segment) (b dur : ℚ) (idx : ℕ)
    (hb0 : 0 ≤ b) (hQb : Q4 b)
    (hsegs : ∀ seg ∈ segs, Q4 seg.start ∧ Q4 seg.stop ∧ 0 ≤ seg.start
      ∧ seg.start ≤ seg.stop ∧ seg.stop ≤ dur) :
    ∀ p ∈ delIv segs b idx, Good dur p := by
  intro p hp
  rcases hget : segs.get? idx with _ | seg
  · simp only [delIv, hget] at hp
    exact absurd hp (List.not_mem_nil p)
  · have hmem : seg ∈ segs := List.get?_mem hget
    obtain ⟨hq1, hq2, h0, hle, hdur⟩ := hsegs seg hmem
    rcases seg with t | sil
    · simp only [delIv, hget, List.mem_singleton] at hp
      subst hp
      exact ⟨hq1, hq2, h0, hle, hdur⟩
    · simp only [Segment.start, Segment.stop] at hq1 hq2 h0 hle hdur
      simp only [delIv, hget] at hp
      rcases hdr : sil.deletable_range b with _ | r
      · rw [hdr] at hp
        exact absurd hp (List.not_mem_nil p)
      · rw [hdr] at hp
        simp only [List.mem_singleton] at hp
        subst hp
        simp only [Silence.deletable_range] at hdr
        split_ifs at hdr with hcond
        · cases hdr
          have hQs : Q4 (sil.start + b) := Q4.add hq1 hQb
          have hQe : Q4 (sil.stop - b) := Q4.sub hq2 hQb
          have hmm : (0 : ℚ) < 0.001 := by norm_num
          dsimp only [Good]
          rw [round4_eq_of_q4 hQs, round4_eq_of_q4 hQe]
          exact ⟨hQs, hQe, by linarith, by linarith, by linarith⟩

/-- A point is covered by (the closed intervals of) a list. -/
def covered (l : List (ℚ × ℚ)) (t : ℚ) : Prop := ∃ p ∈ l, p.1 ≤ t ∧ t ≤ p.2

theorem covered_of_perm {l₁ l₂ : List (ℚ × ℚ)} (h : l₁.Perm l₂) {t : ℚ} :
    covered l₁ t ↔ covered l₂ t := by
  unfold covered
  constructor <;> rintro ⟨p, hp, h1, h2⟩
  · exact ⟨p, h.subset hp, h1, h2⟩
  · exact ⟨p, h.symm.subset hp, h1, h2⟩

theorem covered_append {l₁ l₂ : List (ℚ × ℚ)} {t : ℚ} :
    covered (l₁ ++ l₂) t ↔ covered l₁ t ∨ covered l₂ t := by
  unfold covered
  constructor
  · rintro ⟨p, hp, h1, h2⟩
    rcases List.mem_append.1 hp with h | h
    · exact Or.inl ⟨p, h, h1, h2⟩
    · exact Or.inr ⟨p, h, h1, h2⟩
  · rintro (⟨p, hp, h1, h2⟩ | ⟨p, hp, h1, h2⟩)
    · exact ⟨p, List.mem_append_left _ hp, h1, h2⟩
    · exact ⟨p, List.mem_append_right _ hp, h1, h2⟩

theorem covered_nil (t : ℚ) : ¬ covered [] t := by
  rintro ⟨p, hp, _⟩
  exact List.not_mem_nil p hp

theorem covered_cons {p : ℚ × ℚ} {l : List (ℚ × ℚ)} {t : ℚ} :
    covered (p :: l) t ↔ (p.1 ≤ t ∧ t ≤ p.2) ∨ covered l t := by
  unfold covered
  constructor
  · rintro ⟨q, hq, h1, h2⟩
    rcases List.mem_cons.1 hq with h | h
    · subst h; exact Or.inl ⟨h1, h2⟩
    · exact Or.inr ⟨q, h, h1, h2⟩
  · rintro (⟨h1, h2⟩ | ⟨q, hq, h1, h2⟩)
    · exact ⟨p, List.mem_cons_self _ _, h1, h2⟩
    · exact ⟨q, List.mem_cons_of_mem _ hq, h1, h2⟩

/-- The full specification of the sweep merge (`mergeRev`): on a
start-sorted input list of `Good` intervals, with a reversed accumulator
that is strictly separated and whose head starts no later than any input
interval, the result is strictly separated (reversed), all-`Good`, and
covers exactly the union of accumulator and input. -/
theorem mergeRev_spec (dur : ℚ) :
    ∀ (l acc : List (ℚ × ℚ)),
      List.Pairwise (fun p q : ℚ × ℚ => p.1 ≤ q.1) l →
      List.Chain' (fun p q : ℚ × ℚ => q.2 < p.1) acc →
      (∀ a ∈ acc.head?, ∀ x ∈ l, a.1 ≤ x.1) →
      (∀ p ∈ acc, Good dur p) → (∀ p ∈ l, Good dur p) →
      List.Chain' (fun p q : ℚ × ℚ => q.2 < p.1) (mergeRev acc l)
      ∧ (∀ p ∈ mergeRev acc l, Good dur p)
      ∧ (∀ t, covered (mergeRev acc l) t ↔ (covered acc t ∨ covered l t)) := by
  intro l
  induction l with
  | nil =>
    intro acc _ hacc _ hgacc _
    rw [show mergeRev acc [] = acc by cases acc <;> rfl]
    refine ⟨hacc, hgacc, fun t => ?_⟩
    have := covered_nil t
    constructor
    · intro h; exact Or.inl h
    · rintro (h | h)
      · exact h
      · exact absurd h this
  | cons x rest ih =>
    intro acc hsort hacc hconn hgacc hgl
    obtain ⟨s, e⟩ := x
    have hsort' := hsort.of_cons
    have hxrest : ∀ y ∈ rest, s ≤ y.1 := fun y hy => (List.pairwise_cons.1 hsort).1 y hy
    have hgx : Good dur (s, e) := hgl _ (List.mem_cons_self _ _)
    have hgrest : ∀ p ∈ rest, Good dur p := fun p hp => hgl p (List.mem_cons_of_mem _ hp)
    rcases acc with _ | ⟨⟨ms, me⟩, accT⟩
    · have hstep : mergeRev [] ((s, e) :: rest) = mergeRev [(s, e)] rest := rfl
      have hres := ih [(s, e)] hsort' (List.chain'_singleton _)
        (by
          intro a ha y hy
          simp only [List.head?_cons, Option.mem_def, Option.some.injEq] at ha
          subst ha
          exact hxrest y hy)
        (by
          intro p hp
          simp only [List.mem_singleton] at hp
          subst hp
          exact hgx)
        hgrest
      rw [hstep]
      refine ⟨hres.1, hres.2.1, fun t => ?_⟩
      rw [hres.2.2 t]
      simp only [covered_cons]
      have hnil := covered_nil t
      tauto
    · have hconn_ms : ∀ x ∈ (s, e) :: rest, ms ≤ x.1 :=
        hconn (ms, me) rfl
      have hgm : Good dur (ms, me) := hgacc _ (List.mem_cons_self _ _)
      have hgaccT : ∀ p ∈ accT, Good dur p := fun p hp => hgacc p (List.mem_cons_of_mem _ hp)
      have hms_s : ms ≤ s := hconn_ms (s, e) (List.mem_cons_self _ _)
      by_cases hle : s ≤ me
      · -- merge the incoming interval into the accumulator head
        have hstep : mergeRev ((ms, me) :: accT) ((s, e) :: rest)
            = mergeRev ((ms, max me e) :: accT) rest := by
          simp only [mergeRev]
          rw [if_pos hle]
        have hacc' : List.Chain' (fun p q : ℚ × ℚ => q.2 < p.1) ((ms, max me e) :: accT) :=
          List.chain'_cons'.2 ⟨(List.chain'_cons'.1 hacc).1, (List.chain'_cons'.1 hacc).2⟩
        have hg' : Good dur (ms, max me e) := by
          obtain ⟨q1, q2, g0, gle, gd⟩ := hgm
          obtain ⟨q1', q2', g0', gle', gd'⟩ := hgx
          exact ⟨q1, Q4.max q2 q2', g0, le_trans gle (le_max_left _ _),
            max_le gd gd'⟩
        have hres := ih ((ms, max me e) :: accT)
          hsort' hacc'
          (by
            intro a ha y hy
            simp only [List.head?_cons, Option.mem_def, Option.some.injEq] at ha
            subst ha
            exact le_trans hms_s (hxrest y hy))
          (by
            intro p hp
            rcases List.mem_cons.1 hp with h | h
            · subst h; exact hg'
            · exact hgaccT p h)
          hgrest
        rw [hstep]
        refine ⟨hres.1, hres.2.1, fun t => ?_⟩
        rw [hres.2.2 t]
        have hunion : (ms ≤ t ∧ t ≤ max me e) ↔ ((ms ≤ t ∧ t ≤ me) ∨ (s ≤ t ∧ t ≤ e)) := by
          constructor
          · rintro ⟨h1, h2⟩
            by_cases hme : t ≤ me
            · exact Or.inl ⟨h1, hme⟩
            · push_neg at hme
              refine Or.inr ⟨le_trans hle (le_of_lt hme), ?_⟩
              rcases max_cases me e with ⟨hm, _⟩ | ⟨hm, _⟩
              · rw [hm] at h2; linarith
              · rw [hm] at h2; exact h2
          · rintro (⟨h1, h2⟩ | ⟨h1, h2⟩)
            · exact ⟨h1, le_trans h2 (le_max_left _ _)⟩
            · exact ⟨le_trans hms_s h1, le_trans h2 (le_max_right _ _)⟩
        rw [covered_cons, covered_cons, covered_cons]
        simp only at hunion ⊢
        tauto
      · -- push the incoming interval
        push_neg at hle
        have hstep : mergeRev ((ms, me) :: accT) ((s, e) :: rest)
            = mergeRev ((s, e) :: (ms, me) :: accT) rest := by
          simp only [mergeRev]
          rw [if_neg (not_le.2 hle)]
        have hacc' : List.Chain' (fun p q : ℚ × ℚ => q.2 < p.1)
            ((s, e) :: (ms, me) :: accT) := List.chain'_cons.2 ⟨hle, hacc⟩
        have hres := ih ((s, e) :: (ms, me) :: accT)
          hsort' hacc'
          (by
            intro a ha y hy
            simp only [List.head?_cons, Option.mem_def, Option.some.injEq] at ha
            subst ha
            exact hxrest y hy)
          (by
            intro p hp
            rcases List.mem_cons.1 hp with h | h
            · subst h; exact hgx
            · exact hgacc p h)
          hgrest
        rw [hstep]
        refine ⟨hres.1, hres.2.1, fun t => ?_⟩
        rw [hres.2.2 t]
        rw [covered_cons, covered_cons, covered_cons]
        tauto

/-- `complementLoop` with the (identity, under `Q4`) roundings removed. -/
def complementLoopX (cursor : ℚ) : List (ℚ × ℚ) → List (ℚ × ℚ) × ℚ
  | [] => ([], cursor)
  | (ds, de) :: rest =>
    let r := complementLoopX de rest
    if cursor + 0.001 < ds then ((cursor, ds) :: r.1, r.2) else r

theorem complementLoop_eq_X :
    ∀ (l : List (ℚ × ℚ)) (cursor : ℚ), (∀ p ∈ l, Q4 p.1 ∧ Q4 p.2) →
      complementLoop cursor l = complementLoopX cursor l := by
  intro l
  induction l with
  | nil => intro cursor _; rfl
  | cons x rest ih =>
    intro cursor hQ
    obtain ⟨ds, de⟩ := x
    have hQx := hQ (ds, de) (List.mem_cons_self _ _)
    simp only [complementLoop, complementLoopX,
      round4_eq_of_q4 hQx.1, round4_eq_of_q4 hQx.2,
      ih de (fun p hp => hQ p (List.mem_cons_of_mem _ hp))]

/-- The keep ranges produced for the merged delete list `M` from cursor `c`
(the complement scan plus the final tail range), with exact arithmetic. -/
def fullKeeps (c dur : ℚ) (M : List (ℚ × ℚ)) : List (ℚ × ℚ) :=
  (complementLoopX c M).1 ++
    if (complementLoopX c M).2 < dur - 0.001 then [((complementLoopX c M).2, dur)] else []

/-- Intervals after the head of a separated list start strictly after the
head's end. -/
theorem sep_starts {s e : ℚ} {rest : List (ℚ × ℚ)}
    (hch : List.Chain' (fun p q : ℚ × ℚ => p.2 < q.1) ((s, e) :: rest))
    (hwf : ∀ p ∈ rest, p.1 ≤ p.2) :
    ∀ p ∈ rest, e < p.1 := by
  induction rest generalizing s e with
  | nil => intro p hp; cases hp
  | cons y tl ih =>
    intro p hp
    have h1 : e < y.1 := (List.chain'_cons.1 hch).1
    rcases List.mem_cons.1 hp with h | h
    · subst h; exact h1
    · have h2 : y.1 ≤ y.2 := hwf y (List.mem_cons_self _ _)
      have := ih (s := y.1) (e := y.2)
        (by
          refine List.chain'_cons'.2 ⟨?_, ((List.chain'_cons.1 hch).2).tail⟩
          intro z hz
          exact ((List.chain'_cons'.1 (List.chain'_cons.1 hch).2).1 z hz :))
        (fun q hq => hwf q (List.mem_cons_of_mem _ hq)) p h
      linarith

/-- Properties of the produced keep ranges: each lies between the cursor and
the duration with length strictly above the 1 ms tolerance, they are sorted
and disjoint, and their interiors avoid the merged delete coverage. -/
theorem fullKeeps_spec (dur : ℚ) :
    ∀ (M : List (ℚ × ℚ)) (c : ℚ),
      List.Chain' (fun p q : ℚ × ℚ => p.2 < q.1) M →
      (∀ p ∈ M, p.1 ≤ p.2 ∧ p.2 ≤ dur) →
      (∀ p ∈ M.head?, c ≤ p.1) →
      (∀ r ∈ fullKeeps c dur M, c ≤ r.1 ∧ r.1 + 0.001 < r.2 ∧ r.2 ≤ dur)
      ∧ List.Chain' (fun p q : ℚ × ℚ => p.2 ≤ q.1) (fullKeeps c dur M)
      ∧ (∀ r ∈ fullKeeps c dur M, ∀ t, r.1 < t → t < r.2 → ¬ covered M t) := by
  intro M
  induction M with
  | nil =>
    intro c _ _ _
    by_cases htl : c < dur - 0.001
    · refine ⟨?_, ?_, ?_⟩
      · intro r hr
        simp only [fullKeeps, complementLoopX, if_pos htl, List.nil_append,
          List.mem_singleton] at hr
        subst hr
        exact ⟨le_refl _, by linarith, le_refl _⟩
      · simp only [fullKeeps, complementLoopX, if_pos htl, List.nil_append]
        exact List.chain'_singleton _
      · intro r _ t _ _
        exact covered_nil t
    · refine ⟨?_, ?_, ?_⟩
      · intro r hr
        simp only [fullKeeps, complementLoopX, if_neg htl, List.nil_append] at hr
        cases hr
      · simp only [fullKeeps, complementLoopX, if_neg htl, List.nil_append]
        exact List.chain'_nil
      · intro r hr
        simp only [fullKeeps, complementLoopX, if_neg htl, List.nil_append] at hr
        cases hr
  | cons x rest ih =>
    intro c hch hwf hhd
    obtain ⟨s, e⟩ := x
    have hse : s ≤ e ∧ e ≤ dur := hwf (s, e) (List.mem_cons_self _ _)
    have hcs : c ≤ s := hhd (s, e) rfl
    have hwf' : ∀ p ∈ rest, p.1 ≤ p.2 ∧ p.2 ≤ dur :=
      fun p hp => hwf p (List.mem_cons_of_mem _ hp)
    have hstarts : ∀ p ∈ rest, e < p.1 :=
      sep_starts hch fun p hp => (hwf' p hp).1
    have hrec := ih e ((List.chain'_cons'.1 hch).2) hwf'
      (fun p hp => le_of_lt (hstarts p (List.mem_of_mem_head? hp)))
    have hsplit : fullKeeps c dur ((s, e) :: rest)
        = (if c + 0.001 < s then [(c, s)] else []) ++ fullKeeps e dur rest := by
      simp only [fullKeeps, complementLoopX]
      split_ifs <;> simp
    have hmemfull : ∀ r ∈ fullKeeps e dur rest, e ≤ r.1 ∧ r.1 + 0.001 < r.2 ∧ r.2 ≤ dur :=
      hrec.1
    refine ⟨?_, ?_, ?_⟩
    · intro r hr
      rw [hsplit] at hr
      rcases List.mem_append.1 hr with h | h
      · split_ifs at h with hemit
        · simp only [List.mem_singleton] at h
          subst h
          exact ⟨le_refl _, hemit, le_trans hse.1 hse.2⟩
        · cases h
      · obtain ⟨h1, h2, h3⟩ := hmemfull r h
        exact ⟨le_trans hcs (le_trans hse.1 h1), h2, h3⟩
    · rw [hsplit]
      split_ifs with hemit
      · rw [List.singleton_append]
        refine List.chain'_cons'.2 ⟨?_, hrec.2.1⟩
        intro y hy
        exact le_trans hse.1 (hmemfull y (List.mem_of_mem_head? hy)).1
      · rw [List.nil_append]
        exact hrec.2.1
    · intro r hr t ht1 ht2
      rw [hsplit] at hr
      rw [covered_cons]
      rcases List.mem_append.1 hr with h | h
      · split_ifs at h with hemit
        · simp only [List.mem_singleton] at h
          subst h
          rintro (⟨hs1, _⟩ | hcov)
          · simp only at ht1 ht2
            linarith
          · obtain ⟨p, hp, hp1, _⟩ := hcov
            have := hstarts p hp
            simp only at ht1 ht2
            linarith
        · cases h
      · obtain ⟨h1, _, _⟩ := hmemfull r h
        rintro (⟨hs1, hs2⟩ | hcov)
        · linarith
        · exact hrec.2.2 r h t ht1 ht2 hcov

/-- Any sufficiently long gap (more than 1 ms) above the cursor and below
the duration whose interior avoids the merged delete coverage is contained
in one of the produced keep ranges. -/
theorem keeps_contain_gap (dur : ℚ) :
    ∀ (M : List (ℚ × ℚ)) (c a bb : ℚ),
      List.Chain' (fun p q : ℚ × ℚ => p.2 < q.1) M →
      (∀ p ∈ M, p.1 ≤ p.2 ∧ p.2 ≤ dur) →
      (∀ p ∈ M.head?, c ≤ p.1) →
      c ≤ a → bb ≤ dur → 0.001 < bb - a →
      (∀ t, a < t → t < bb → ¬ covered M t) →
      ∃ r ∈ fullKeeps c dur M, r.1 ≤ a ∧ bb ≤ r.2 := by
  intro M
  induction M with
  | nil =>
    intro c a bb _ _ _ hca hbd hlen _
    have htl : c < dur - 0.001 := by linarith
    refine ⟨(c, dur), ?_, hca, hbd⟩
    simp [fullKeeps, complementLoopX, if_pos htl]
  | cons x rest ih =>
    intro c a bb hch hwf hhd hca hbd hlen hfree
    obtain ⟨s, e⟩ := x
    have hse : s ≤ e ∧ e ≤ dur := hwf (s, e) (List.mem_cons_self _ _)
    have hcs : c ≤ s := hhd (s, e) rfl
    have hwf' : ∀ p ∈ rest, p.1 ≤ p.2 ∧ p.2 ≤ dur :=
      fun p hp => hwf p (List.mem_cons_of_mem _ hp)
    have hstarts : ∀ p ∈ rest, e < p.1 :=
      sep_starts hch fun p hp => (hwf' p hp).1
    have hsplit : fullKeeps c dur ((s, e) :: rest)
        = (if c + 0.001 < s then [(c, s)] else []) ++ fullKeeps e dur rest := by
      simp only [fullKeeps, complementLoopX]
      split_ifs <;> simp
    by_cases hbs : bb ≤ s
    · have hemit : c + 0.001 < s := by linarith
      refine ⟨(c, s), ?_, hca, hbs⟩
      rw [hsplit, if_pos hemit]
      exact List.mem_append_left _ (List.mem_singleton.2 rfl)
    · push_neg at hbs
      by_cases hae : a < e
      · exfalso
        have h001 : (0 : ℚ) < 0.001 := by norm_num
        have hab : a < bb := by linarith
        have h1 : a ≤ max a s := le_max_left a s
        have h2 : s ≤ max a s := le_max_right a s
        have h3 : min bb e ≤ bb := min_le_left bb e
        have h4 : min bb e ≤ e := min_le_right bb e
        have h5 : a < min bb e := lt_min hab hae
        have h6 : max a s ≤ min bb e :=
          max_le (le_min (le_of_lt hab) (le_of_lt hae)) (le_min (le_of_lt hbs) hse.1)
        have h7 : max a s < bb := max_lt hab hbs
        refine hfree ((max a s + min bb e) / 2) (by linarith) (by linarith) ?_
        rw [covered_cons]
        exact Or.inl ⟨by linarith, by linarith⟩
      · push_neg at hae
        obtain ⟨r, hrmem, hr1, hr2⟩ := ih e a bb ((List.chain'_cons'.1 hch).2) hwf'
          (fun p hp => le_of_lt (hstarts p (List.mem_of_mem_head? hp)))
          hae hbd hlen
          (fun t ht1 ht2 hc => hfree t ht1 ht2 (by rw [covered_cons]; exact Or.inr hc))
        refine ⟨r, ?_, hr1, hr2⟩
        rw [hsplit]
        exact List.mem_append_right _ hrmem

theorem chainSep_pairwise :
    ∀ (l : List (ℚ × ℚ)), List.Chain' (fun p q : ℚ × ℚ => p.2 ≤ q.1) l →
      (∀ p ∈ l, p.1 ≤ p.2) →
      List.Pairwise (fun p q : ℚ × ℚ => p.2 ≤ q.1) l := by
  intro l
  induction l with
  | nil => intro _ _; exact List.Pairwise.nil
  | cons p rest ih =>
    intro hch hwf
    have hrest := ih ((List.chain'_cons'.1 hch).2)
      (fun r hr => hwf r (List.mem_cons_of_mem _ hr))
    refine List.pairwise_cons.2 ⟨?_, hrest⟩
    intro r hr
    rcases rest with _ | ⟨h0, tl⟩
    · cases hr
    · have hph : p.2 ≤ h0.1 := (List.chain'_cons.1 hch).1
      rcases List.mem_cons.1 hr with h | h
      · subst h; exact hph
      · have hh0 : h0.1 ≤ h0.2 :=
          hwf h0 (List.mem_cons_of_mem _ (List.mem_cons_self _ _))
        have := (List.pairwise_cons.1 hrest).1 r h
        linarith

theorem keepTotal_le_span :
    ∀ (l : List (ℚ × ℚ)) (lo hi : ℚ),
      (∀ p ∈ l, p.1 ≤ p.2 ∧ p.2 ≤ hi) →
      List.Pairwise (fun p q : ℚ × ℚ => p.2 ≤ q.1) l →
      (∀ p ∈ l, lo ≤ p.1) → lo ≤ hi →
      keepTotal l ≤ hi - lo := by
  intro l
  induction l with
  | nil =>
    intro lo hi _ _ _ hlh
    rw [keepTotal_nil]
    linarith
  | cons p rest ih =>
    intro lo hi hwf hpw hlo hlohi
    have hp := hwf p (List.mem_cons_self _ _)
    have hrest := ih p.2 hi
      (fun r hr => hwf r (List.mem_cons_of_mem _ hr))
      hpw.of_cons
      (fun r hr => (List.pairwise_cons.1 hpw).1 r hr)
      hp.2
    have hplo := hlo p (List.mem_cons_self _ _)
    rw [keepTotal_cons]
    linarith

theorem keepTotal_filter_split (pr : ℚ × ℚ → Bool) (l : List (ℚ × ℚ)) :
    keepTotal l = keepTotal (l.filter pr) + keepTotal (l.filter fun p => !(pr p)) := by
  induction l with
  | nil => simp [keepTotal_nil]
  | cons p rest ih =>
    rcases h : pr p with _ | _
    · simp only [List.filter_cons, h, Bool.not_false, keepTotal_cons, ih, if_true,
        Bool.false_eq_true, if_false]
      ring
    · simp only [List.filter_cons, h, Bool.not_true, keepTotal_cons, ih, if_true,
        Bool.false_eq_true, if_false]
      ring

/-- Summation comparison: a sorted disjoint family of nondegenerate ranges,
each contained in a member of a sorted disjoint family, has no larger total
length. -/
theorem keepTotal_mono_contained :
    ∀ (B A : List (ℚ × ℚ)),
      (∀ p ∈ B, p.1 ≤ p.2) →
      List.Pairwise (fun p q : ℚ × ℚ => p.2 ≤ q.1) B →
      (∀ p ∈ A, p.1 < p.2) →
      List.Pairwise (fun p q : ℚ × ℚ => p.2 ≤ q.1) A →
      (∀ p ∈ A, ∃ q ∈ B, q.1 ≤ p.1 ∧ p.2 ≤ q.2) →
      keepTotal A ≤ keepTotal B := by
  intro B
  induction B with
  | nil =>
    intro A _ _ _ _ hcont
    rcases A with _ | ⟨p, A'⟩
    · rw [keepTotal_nil]
    · obtain ⟨q, hq, _⟩ := hcont p (List.mem_cons_self _ _)
      cases hq
  | cons q B' ih =>
    intro A hBwf hBpw hA hApw hcont
    have hq12 : q.1 ≤ q.2 := hBwf q (List.mem_cons_self _ _)
    have hsplit := keepTotal_filter_split (fun p => decide (p.2 ≤ q.2)) A
    have hA1mem : ∀ p ∈ A.filter (fun p => decide (p.2 ≤ q.2)), p ∈ A :=
      fun p hp => (List.filter_sublist _).subset hp
    have hA2mem : ∀ p ∈ A.filter (fun p => !(decide (p.2 ≤ q.2))), p ∈ A :=
      fun p hp => (List.filter_sublist _).subset hp
    have hA1le : ∀ p ∈ A.filter (fun p => decide (p.2 ≤ q.2)), p.2 ≤ q.2 := by
      intro p hp
      have := (List.mem_filter.1 hp).2
      simpa using this
    have hA2gt : ∀ p ∈ A.filter (fun p => !(decide (p.2 ≤ q.2))), ¬ (p.2 ≤ q.2) := by
      intro p hp
      have := (List.mem_filter.1 hp).2
      simpa using this
    have hA1lo : ∀ p ∈ A.filter (fun p => decide (p.2 ≤ q.2)), q.1 ≤ p.1 := by
      intro p hp
      obtain ⟨qq, hqq, hc1, hc2⟩ := hcont p (hA1mem p hp)
      rcases List.mem_cons.1 hqq with h | h
      · subst h; exact hc1
      · exfalso
        have hqr : q.2 ≤ qq.1 := (List.pairwise_cons.1 hBpw).1 qq h
        have hpp := hA p (hA1mem p hp)
        have := hA1le p hp
        linarith
    have hS1 : keepTotal (A.filter (fun p => decide (p.2 ≤ q.2))) ≤ q.2 - q.1 :=
      keepTotal_le_span _ q.1 q.2
        (fun p hp => ⟨le_of_lt (hA p (hA1mem p hp)), hA1le p hp⟩)
        (List.Pairwise.sublist (List.filter_sublist _) hApw)
        hA1lo hq12
    have hA2cont : ∀ p ∈ A.filter (fun p => !(decide (p.2 ≤ q.2))),
        ∃ qq ∈ B', qq.1 ≤ p.1 ∧ p.2 ≤ qq.2 := by
      intro p hp
      obtain ⟨qq, hqq, hc1, hc2⟩ := hcont p (hA2mem p hp)
      rcases List.mem_cons.1 hqq with h | h
      · subst h
        exact absurd hc2 (hA2gt p hp)
      · exact ⟨qq, h, hc1, hc2⟩
    have hS2 : keepTotal (A.filter (fun p => !(decide (p.2 ≤ q.2)))) ≤ keepTotal B' :=
      ih _ (fun p hp => hBwf p (List.mem_cons_of_mem _ hp)) hBpw.of_cons
        (fun p hp => hA p (hA2mem p hp))
        (List.Pairwise.sublist (List.filter_sublist _) hApw)
        hA2cont
    rw [hsplit, keepTotal_cons]
    linarith

/-- The delete intervals collected for a deleted-index set. -/
def delIvs (segs : List Segment) (b : ℚ) (E : Finset ℕ) : List (ℚ × ℚ) :=
  (E.sort (· ≤ ·)).flatMap (delIv segs b)

theorem sortPairs_sorted (l : List (ℚ × ℚ)) :
    List.Pairwise (fun p q : ℚ × ℚ => p.1 ≤ q.1) (sortPairs l) := by
  haveI h1 : IsTotal (ℚ × ℚ) (fun p q : ℚ × ℚ => p.1 ≤ q.1) := ⟨fun a b => le_total a.1 b.1⟩
  haveI h2 : IsTrans (ℚ × ℚ) (fun p q : ℚ × ℚ => p.1 ≤ q.1) := ⟨fun a b c u v => le_trans u v⟩
  exact List.sorted_insertionSort _ l

/-- Everything `C4` needs about one `get_keep_ranges` call on exact
in-bounds data: it succeeds, its keep ranges are weakly within `[0, dur]`,
sorted and disjoint; when there are delete intervals the keeps are longer
than 1 ms with interiors avoiding the delete coverage; and every long-enough
uncovered gap is contained in some keep range. -/
theorem gkr_package (segs : List Segment) (E : Finset ℕ) (b dur : ℚ)
    (hE : ∀ i ∈ E, i < segs.length)
    (hdur0 : 0 ≤ dur) (hQd : Q4 dur)
    (hgood : ∀ p ∈ delIvs segs b E, Good dur p) :
    ∃ keeps, get_keep_ranges segs E b dur = .ok keeps
      ∧ (∀ r ∈ keeps, 0 ≤ r.1 ∧ r.1 ≤ r.2 ∧ r.2 ≤ dur)
      ∧ List.Chain' (fun p q : ℚ × ℚ => p.2 ≤ q.1) keeps
      ∧ (delIvs segs b E ≠ [] →
          ∀ r ∈ keeps, r.1 + 0.001 < r.2
            ∧ ∀ t, r.1 < t → t < r.2 → ¬ covered (delIvs segs b E) t)
      ∧ (∀ a bb : ℚ, 0 ≤ a → bb ≤ dur → 0.001 < bb - a →
          (∀ t, a < t → t < bb → ¬ covered (delIvs segs b E) t) →
          ∃ r ∈ keeps, r.1 ≤ a ∧ bb ≤ r.2) := by
  have hvalid : ∀ i ∈ E.sort (· ≤ ·), i < segs.length :=
    fun i hi => hE i (Finset.mem_sort (α := ℕ) (· ≤ ·) |>.1 hi)
  have hcol : collectDeleted segs b (E.sort (· ≤ ·)) = .ok (delIvs segs b E) :=
    collectDeleted_eq_flatMap segs b (E.sort (· ≤ ·)) hvalid
  by_cases hemp : delIvs segs b E = []
  · refine ⟨[(0, dur)], ?_, ?_, List.chain'_singleton _, ?_, ?_⟩
    · rw [get_keep_ranges, hcol]
      dsimp only
      rw [if_pos hemp]
    · intro r hr
      simp only [List.mem_singleton] at hr
      subst hr
      exact ⟨le_refl _, hdur0, le_refl _⟩
    · intro h; exact absurd hemp h
    · intro a bb ha hbb _ _
      exact ⟨(0, dur), List.mem_singleton.2 rfl, ha, hbb⟩
  · -- the merged delete list and its properties
    have hperm : (sortPairs (delIvs segs b E)).Perm (delIvs segs b E) :=
      List.perm_insertionSort _ _
    have hgoodS : ∀ p ∈ sortPairs (delIvs segs b E), Good dur p :=
      fun p hp => hgood p (hperm.subset hp)
    have hmr := mergeRev_spec dur (sortPairs (delIvs segs b E)) []
      (sortPairs_sorted _) List.chain'_nil
      (fun a ha => by cases ha)
      (fun p hp => by cases hp)
      hgoodS
    set mr := mergeRev [] (sortPairs (delIvs segs b E)) with hmrdef
    have hchainM : List.Chain' (fun p q : ℚ × ℚ => p.2 < q.1) mr.reverse := by
      rw [List.chain'_reverse]
      exact hmr.1
    have hgoodM : ∀ p ∈ mr.reverse, Good dur p :=
      fun p hp => hmr.2.1 p (List.mem_reverse.1 hp)
    have hcovM : ∀ t, covered mr.reverse t ↔ covered (delIvs segs b E) t := by
      intro t
      rw [covered_of_perm (List.reverse_perm mr), hmr.2.2 t]
      constructor
      · rintro (h | h)
        · exact absurd h (covered_nil t)
        · exact (covered_of_perm hperm).1 h
      · intro h
        exact Or.inr ((covered_of_perm hperm).2 h)
    have hboundsM : ∀ p ∈ mr.reverse, p.1 ≤ p.2 ∧ p.2 ≤ dur :=
      fun p hp => ⟨(hgoodM p hp).2.2.2.1, (hgoodM p hp).2.2.2.2⟩
    have hheadM : ∀ p ∈ mr.reverse.head?, (0 : ℚ) ≤ p.1 :=
      fun p hp => (hgoodM p (List.mem_of_mem_head? hp)).2.2.1
    have hQM : ∀ p ∈ mr.reverse, Q4 p.1 ∧ Q4 p.2 :=
      fun p hp => ⟨(hgoodM p hp).1, (hgoodM p hp).2.1⟩
    have hspec := fullKeeps_spec dur mr.reverse 0 hchainM hboundsM hheadM
    refine ⟨fullKeeps 0 dur mr.reverse, ?_, ?_, hspec.2.1, ?_, ?_⟩
    · rw [get_keep_ranges, hcol]
      dsimp only
      rw [if_neg hemp]
      rw [complementLoop_eq_X mr.reverse 0 hQM, round4_eq_of_q4 hQd]
      rfl
    · intro r hr
      obtain ⟨h1, h2, h3⟩ := hspec.1 r hr
      have : (0 : ℚ) < 0.001 := by norm_num
      exact ⟨h1, by linarith, h3⟩
    · intro _ r hr
      obtain ⟨_, h2, _⟩ := hspec.1 r hr
      exact ⟨h2, fun t ht1 ht2 hc => hspec.2.2 r hr t ht1 ht2 ((hcovM t).2 hc)⟩
    · intro a bb ha hbb hlen hfree
      exact keeps_contain_gap dur mr.reverse 0 a bb hchainM hboundsM hheadM ha hbb hlen
        (fun t ht1 ht2 hc => hfree t ht1 ht2 ((hcovM t).1 hc))

/-- **C4** (corrected): the monotonic-shrink property fails for arbitrary
durations (`C4_cex`), but holds under the amendments it forces: if the
timeline's segments all lie within `[0, duration]` with exact 4-decimal
endpoints and `start ≤ end`, and the buffer and duration are non-negative
exact 4-decimal values, then adding any further valid index to the deletion
set never increases the total kept duration. -/
theorem C4_monotonic_shrink (segs : List Segment) (D : Finset ℕ) (j : ℕ) (b dur : ℚ)
    (hj : j < segs.length)
    (hD : ∀ i ∈ D, i < segs.length)
    (hb0 : 0 ≤ b) (hQb : Q4 b)
    (hdur0 : 0 ≤ dur) (hQd : Q4 dur)
    (hsegs : ∀ seg ∈ segs, Q4 seg.start ∧ Q4 seg.stop ∧ 0 ≤ seg.start
      ∧ seg.start ≤ seg.stop ∧ seg.stop ≤ dur) :
    ∃ k1 k2, get_keep_ranges segs D b dur = .ok k1
      ∧ get_keep_ranges segs (insert j D) b dur = .ok k2
      ∧ keepTotal k2 ≤ keepTotal k1 := by
  have hgoodIdx : ∀ (E : Finset ℕ), ∀ p ∈ delIvs segs b E, Good dur p := by
    intro E p hp
    obtain ⟨idx, _, hpidx⟩ := List.mem_flatMap.1 hp
    exact delIv_good segs b dur idx hb0 hQb hsegs p hpidx
  obtain ⟨k1, heq1, hw1, hch1, _, hcont1⟩ :=
    gkr_package segs D b dur hD hdur0 hQd (hgoodIdx D)
  by_cases hjD : j ∈ D
  · rw [Finset.insert_eq_self.2 hjD]
    exact ⟨k1, k1, heq1, heq1, le_refl _⟩
  · have hD' : ∀ i ∈ insert j D, i < segs.length := by
      intro i hi
      rcases Finset.mem_insert.1 hi with h | h
      · subst h; exact hj
      · exact hD i h
    obtain ⟨k2, heq2, hw2, hch2, hne2, _⟩ :=
      gkr_package segs (insert j D) b dur hD' hdur0 hQd (hgoodIdx (insert j D))
    -- the new delete intervals are (a permutation of) the old plus `j`'s
    have hpermIdx : ((insert j D).sort (· ≤ ·)).Perm (j :: D.sort (· ≤ ·)) :=
      ((Finset.sort_perm_toList _ _).trans (Finset.toList_insert hjD)).trans
        (List.Perm.cons j (Finset.sort_perm_toList (· ≤ ·) D).symm)
    have hpermIv : (delIvs segs b (insert j D)).Perm
        (delIv segs b j ++ delIvs segs b D) := by
      have := List.Perm.flatMap_right (delIv segs b) hpermIdx
      rwa [List.flatMap_cons] at this
    have hcovmono : ∀ t, covered (delIvs segs b D) t →
        covered (delIvs segs b (insert j D)) t := by
      intro t ht
      exact (covered_of_perm hpermIv).2 (covered_append.2 (Or.inr ht))
    by_cases hnew : delIvs segs b (insert j D) = []
    · have hold : delIvs segs b D = [] := by
        rw [hnew] at hpermIv
        exact (List.append_eq_nil.1 (List.Perm.eq_nil hpermIv.symm)).2
      -- both calls take the fast path with identical output
      have hfast1 : get_keep_ranges segs D b dur = .ok [(0, dur)] := by
        rw [get_keep_ranges,
          (show collectDeleted segs b (D.sort (· ≤ ·)) = .ok (delIvs segs b D) from
            collectDeleted_eq_flatMap segs b _
              (fun i hi => hD i (Finset.mem_sort (α := ℕ) (· ≤ ·) |>.1 hi)))]
        dsimp only
        rw [if_pos hold]
      have hfast2 : get_keep_ranges segs (insert j D) b dur = .ok [(0, dur)] := by
        rw [get_keep_ranges,
          (show collectDeleted segs b ((insert j D).sort (· ≤ ·))
              = .ok (delIvs segs b (insert j D)) from
            collectDeleted_eq_flatMap segs b _
              (fun i hi => hD' i (Finset.mem_sort (α := ℕ) (· ≤ ·) |>.1 hi)))]
        dsimp only
        rw [if_pos hnew]
      exact ⟨[(0, dur)], [(0, dur)], hfast1, hfast2, le_refl _⟩
    · refine ⟨k1, k2, heq1, heq2, ?_⟩
      have hstrict2 := hne2 hnew
      refine keepTotal_mono_contained k1 k2
        (fun p hp => (hw1 p hp).2.1)
        (chainSep_pairwise k1 hch1 fun p hp => (hw1 p hp).2.1)
        (fun p hp => by
          have := (hstrict2 p hp).1
          have h001 : (0 : ℚ) < 0.001 := by norm_num
          linarith)
        (chainSep_pairwise k2 hch2 fun p hp => (hw2 p hp).2.1)
        ?_
      intro p hp
      obtain ⟨h0, _, hd⟩ := hw2 p hp
      obtain ⟨hlen2, havoid⟩ := hstrict2 p hp
      refine hcont1 p.1 p.2 h0 hd (by linarith) ?_
      intro t ht1 ht2 hc
      exact havoid t ht1 ht2 (hcovmono t hc)

/-- Witness for the amended C4: one word and one silence within a 2 s clip,
adding index 0 to an empty deletion set. -/
theorem C4_witness :
    ∃ k1 k2, get_keep_ranges [.text ⟨"a", 0, 1⟩, .silence ⟨1, 2, true⟩] ∅ 0.05 2 = .ok k1
      ∧ get_keep_ranges [.text ⟨"a", 0, 1⟩, .silence ⟨1, 2, true⟩] (insert 0 ∅) 0.05 2 = .ok k2
      ∧ keepTotal k2 ≤ keepTotal k1 :=
  C4_monotonic_shrink [.text ⟨"a", 0, 1⟩, .silence ⟨1, 2, true⟩] ∅ 0 0.05 2
    (by norm_num)
    (by intro i hi; cases hi)
    (by norm_num)
    ⟨500, by norm_num⟩
    (by norm_num)
    ⟨20000, by norm_num⟩
    (by
      intro seg hseg
      rcases List.mem_cons.1 hseg with h | h
      · subst h
        refine ⟨⟨0, ?_⟩, ⟨10000, ?_⟩, ?_, ?_, ?_⟩ <;> norm_num [Segment.start, Segment.stop]
      · rcases List.mem_cons.1 h with h2 | h2
        · subst h2
          refine ⟨⟨10000, ?_⟩, ⟨20000, ?_⟩, ?_, ?_, ?_⟩ <;>
            norm_num [Segment.start, Segment.stop]
        · cases h2)

/-! ## Claim C4: counterexample -/

/-- **C4** (counterexample): for the timeline `[Text("a", 5, 10)]` (a
segment lying beyond the supplied duration 3), buffer `0.05`, `D = ∅` and
`j = 0 < 1` = segment count: `get_keep_ranges` with `∅` keeps `[(0, 3)]`
(total 3), but with `{0}` it keeps `[(0, 5)]` (total 5) — adding the index
*increased* the total kept duration, because the resolver emits the gap
before a delete interval even when it extends past the duration. -/
theorem C4_cex :
    get_keep_ranges [.text ⟨"a", 5, 10⟩] ∅ 0.05 3 = .ok [(0, 3)]
    ∧ get_keep_ranges [.text ⟨"a", 5, 10⟩] (insert 0 ∅) 0.05 3 = .ok [(0, 5)]
    ∧ (0 : ℕ) < 1
    ∧ ¬ (keepTotal [(0, 5)] ≤ keepTotal [(0, 3)]) := by
  refine ⟨?_, ?_, by norm_num, ?_⟩
  · simp [get_keep_ranges, Finset.sort_empty, collectDeleted]
  · norm_num [get_keep_ranges, collectDeleted, Finset.sort_insert, Finset.sort_empty,
      mergeRev, complementLoop, round4, roundHalfEven]
  · norm_num [keepTotal]

end FTE
